import Mathlib

/-!
Verification of the `MergeMove` operation of the `ppath` library
(`path.go`, method `Path.MergeMove`).

The host filesystem is modelled as a finite tree of nodes: a node is a
regular file with a textual content, a directory holding a list of named
child entries, or a special file (device, socket, ...).  A path is the
list of name segments below the root.  The filesystem primitives used by
`MergeMove` (`Exists`, `IsRegular`, `IsDir`, `ReadDir`, `os.Rename`,
`os.RemoveAll` via `Delete`, `MkdirIfNotExist` over `os.MkdirAll`) are
embedded as executable functions over this tree, and `MergeMove` itself
is embedded as a fuel-indexed recursive function returning the final
filesystem together with an optional error, so that partial mutations
performed before a failure stay observable.
-/

/-- A path below the filesystem root, as its list of name segments
(`Path` in the Go source is the joined textual form of this list). -/
abbrev FPath := List String

/-- A filesystem node: regular file with content, directory with named
children (in directory listing order), or a special file. -/
inductive Node where
  | file (content : String)
  | dir (entries : List (String × Node))
  | special

/-- Errors produced by the embedded operations.  `msg` are the errors
`MergeMove` itself creates with `errz.E(string)`; `prim` are errors of
the underlying filesystem primitives; `wrap` is `errz.E(err, step)`;
`wrapName` is `errz.E(err, step, "name", entryName)`; `outOfFuel` marks
exhaustion of the recursion fuel of the embedding (never produced by the
Go code, which recurses without a bound). -/
inductive Err where
  | msg (s : String)
  | prim (s : String)
  | wrap (step : String) (e : Err)
  | wrapName (step name : String) (e : Err)
  | outOfFuel
deriving Repr, DecidableEq

/-- Find the child of a directory-entry list by name (first match). -/
def findEntry : List (String × Node) → String → Option Node
  | [], _ => none
  | (k, v) :: rest, name => if k = name then some v else findEntry rest name

/-- Replace the (first) child of the given name in a directory-entry
list, keeping its position. -/
def replaceEntry : List (String × Node) → String → Node → List (String × Node)
  | [], _, _ => []
  | (k, v) :: rest, name, n =>
      if k = name then (k, n) :: rest else (k, v) :: replaceEntry rest name n

/-- Remove the (first) child of the given name from a directory-entry
list. -/
def eraseEntry : List (String × Node) → String → List (String × Node)
  | [], _ => []
  | (k, v) :: rest, name =>
      if k = name then rest else (k, v) :: eraseEntry rest name

/-- A chain of fresh empty directories along the given path, as created
by `os.MkdirAll` below the deepest already-existing directory. -/
def freshDirs : FPath → Node
  | [] => .dir []
  | name :: rest => .dir [(name, freshDirs rest)]

/-- Resolve a path below a node. -/
def Node.lookup : Node → FPath → Option Node
  | n, [] => some n
  | .dir es, name :: rest =>
      match findEntry es name with
      | some c => c.lookup rest
      | none => none
  | .file _, _ :: _ => none
  | .special, _ :: _ => none

mutual
/-- Height of a node: 1 for a file or special file, 1 plus the maximal
child height for a directory.  Measures the depth of the recursion
`MergeMove` performs below a source node. -/
def Node.depth : Node → Nat
  | .file _ => 1
  | .special => 1
  | .dir es => 1 + entriesDepth es

/-- Maximal height of the nodes of a directory-entry list. -/
def entriesDepth : List (String × Node) → Nat
  | [] => 0
  | (_, c) :: rest => max c.depth (entriesDepth rest)
end

/-- The names of a directory-entry list are pairwise distinct. -/
def nodupKeys : List (String × Node) → Bool
  | [] => true
  | (k, _) :: rest => !(rest.map Prod.fst).contains k && nodupKeys rest

mutual
/-- Well-formed filesystem tree: every directory has pairwise distinct
entry names (as real directories do). -/
def Node.wf : Node → Bool
  | .file _ => true
  | .special => true
  | .dir es => nodupKeys es && entriesWF es

/-- All nodes of a directory-entry list are well-formed. -/
def entriesWF : List (String × Node) → Bool
  | [] => true
  | (_, c) :: rest => c.wf && entriesWF rest
end


/-- Chain of directories ending in the written node, used by `Node.setAt`
when the remaining path does not exist. -/
def buildChain : FPath → Node → Node
  | [], m => m
  | name :: rest, m => .dir [(name, buildChain rest m)]

/-- Write a node at a path (total; the callers establish that the parent
directory exists, otherwise missing intermediate directories appear and
non-directory nodes on the way absorb the write). -/
def Node.setAt : Node → FPath → Node → Node
  | _, [], m => m
  | .dir es, name :: rest, m =>
      match findEntry es name with
      | some c => .dir (replaceEntry es name (c.setAt rest m))
      | none => .dir (es ++ [(name, buildChain rest m)])
  | .file s, _ :: _, _ => .file s
  | .special, _ :: _, _ => .special

/-- Remove the subtree at a path (`os.RemoveAll`; a no-op when the path
does not exist, and permission failures are outside the model, so the
operation is total). -/
def Node.removeAt : Node → FPath → Node
  | n, [] => n
  | .dir es, name :: rest =>
      match rest with
      | [] => .dir (eraseEntry es name)
      | _ :: _ =>
          match findEntry es name with
          | some c => .dir (replaceEntry es name (c.removeAt rest))
          | none => .dir es
  | .file s, _ :: _ => .file s
  | .special, _ :: _ => .special

/-- `Path.Exists` / `Path.IsExist`: `os.Stat` succeeds. -/
def existsAt (fs : Node) (p : FPath) : Bool :=
  (fs.lookup p).isSome

/-- `Path.IsRegular`: the node exists and is a regular file. -/
def isRegular (fs : Node) (p : FPath) : Bool :=
  match fs.lookup p with
  | some (.file _) => true
  | _ => false

/-- `Path.IsDir`: the node exists and is a directory. -/
def isDir (fs : Node) (p : FPath) : Bool :=
  match fs.lookup p with
  | some (.dir _) => true
  | _ => false

/-- `Path.Base`: the last segment (`filepath.Base`; "." for the empty
path, which the claims never use). -/
def baseName (p : FPath) : String :=
  p.getLastD "."

/-- `os.MkdirAll`: create every missing directory along the path; fail
when an existing node on the way (or at the end) is not a directory, in
which case nothing is created. -/
def Node.mkdirAll : Node → FPath → Node × Option Err
  | .dir es, [] => (.dir es, none)
  | .dir es, name :: rest =>
      match findEntry es name with
      | some c =>
          match c.mkdirAll rest with
          | (_, some e) => (.dir es, some e)
          | (c', none) => (.dir (replaceEntry es name c'), none)
      | none => (.dir (es ++ [(name, freshDirs rest)]), none)
  | .file s, _ => (.file s, some (.prim "mkdir: not a directory"))
  | .special, _ => (.special, some (.prim "mkdir: not a directory"))

/-- `Path.MkdirIfNotExist`: `os.MkdirAll` when the path does not exist;
an error when it exists as a non-directory; otherwise a no-op. -/
def mkdirIfNotExist (fs : Node) (p : FPath) : Node × Option Err :=
  match fs.lookup p with
  | none => fs.mkdirAll p
  | some (.dir _) => (fs, none)
  | some _ => (fs, some (.prim "already exists but not a directory"))

/-- `Path.ReadDir`: the entry names of a directory, in listing order;
an error when the path is not a directory. -/
def readDir (fs : Node) (p : FPath) : Except Err (List String) :=
  match fs.lookup p with
  | some (.dir es) => .ok (es.map Prod.fst)
  | _ => .error (.prim "not a directory")

/-- `os.Rename` with POSIX semantics: fails when the source is missing,
when the source is a proper ancestor of the destination (`EINVAL`), when
the destination's parent is not an existing directory, or when the
destination exists with an incompatible type (file over directory
`EISDIR`, directory over non-directory `ENOTDIR`, directory over a
non-empty directory `ENOTEMPTY`); renaming a path onto itself is a
successful no-op; otherwise the source subtree is atomically unlinked
and relinked at the destination, replacing a compatible existing
destination. -/
def rename (fs : Node) (src dst : FPath) : Node × Option Err :=
  match fs.lookup src with
  | none => (fs, some (.prim "rename: no such file or directory"))
  | some sn =>
      if src = dst then (fs, none)
      else if src.isPrefixOf dst then (fs, some (.prim "rename: invalid argument"))
      else if dst.isEmpty then (fs, some (.prim "rename: invalid argument"))
      else
        match fs.lookup dst.dropLast with
        | some (.dir _) =>
            match fs.lookup dst with
            | none => ((fs.removeAt src).setAt dst sn, none)
            | some dn =>
                match sn, dn with
                | .dir _, .dir es =>
                    if es.isEmpty then ((fs.removeAt src).setAt dst sn, none)
                    else (fs, some (.prim "rename: directory not empty"))
                | .dir _, _ => (fs, some (.prim "rename: not a directory"))
                | _, .dir _ => (fs, some (.prim "rename: is a directory"))
                | _, _ => ((fs.removeAt src).setAt dst sn, none)
        | _ => (fs, some (.prim "rename: no such file or directory"))

/-- The per-entry loop of the directory-merge branch of
`Path.MergeMove`: for each entry name in listing order run the recursive
move on `source/entry → destination/entry`; abort on the first failure,
wrapping its error as `errz.E(err, "move file", "name", entryName)`. -/
def runEntries (f : Node → FPath → FPath → Node × Option Err) :
    Node → List String → FPath → FPath → Node × Option Err
  | fs, [], _, _ => (fs, none)
  | fs, name :: rest, p, dst =>
      match f fs (p ++ [name]) (dst ++ [name]) with
      | (fs1, some e) => (fs1, some (.wrapName "move file" name e))
      | (fs1, none) => runEntries f fs1 rest p dst

/-- `Path.MergeMove`, fuel-indexed (the Go code recurses without a
bound; `outOfFuel` marks fuel exhaustion of the embedding only).
Returns the filesystem after the call together with an optional error,
so that mutations preceding a failure stay observable.  Mirrors
`path.go`: missing source error; straight move when the destination is
missing (after creating its parent directories); file into directory,
file over file (delete then rename; the `Delete` of the old file is
`os.RemoveAll`, total in this model), or an error for other destination
types; and for directories the recursive entry merge followed by
deleting the emptied source directory. -/
def mergeMove : Nat → Node → FPath → FPath → Node × Option Err
  | 0, fs, _, _ => (fs, some .outOfFuel)
  | fuel + 1, fs, p, dst =>
      if !existsAt fs p then (fs, some (.msg "source file does not exist"))
      else if !existsAt fs dst then
        match mkdirIfNotExist fs dst.dropLast with
        | (fs1, some e) => (fs1, some (.wrap "create parent directory" e))
        | (fs1, none) =>
            match rename fs1 p dst with
            | (fs2, some e) => (fs2, some (.wrap "rename file" e))
            | (fs2, none) => (fs2, none)
      else if isRegular fs p then
        if isDir fs dst then
          match rename fs p (dst ++ [baseName p]) with
          | (fs1, some e) => (fs1, some (.wrap "rename file" e))
          | (fs1, none) => (fs1, none)
        else if !isRegular fs dst then (fs, some (.msg "destination is not a regular file"))
        else
          match rename (fs.removeAt dst) p dst with
          | (fs2, some e) => (fs2, some (.wrap "rename file" e))
          | (fs2, none) => (fs2, none)
      else if !isDir fs p then (fs, some (.msg "source must be a regular file or directory"))
      else if !isDir fs dst then (fs, some (.msg "destination is not a directory"))
      else
        match readDir fs p with
        | .error e => (fs, some (.wrap "reading directory entries" e))
        | .ok names =>
            match runEntries (fun s a b => mergeMove fuel s a b) fs names p dst with
            | (fs1, some e) => (fs1, some e)
            | (fs1, none) => (fs1.removeAt p, none)

/-- Source and destination are disjoint: neither path is a prefix of
the other (in particular they are distinct and neither lies inside the
other's subtree). -/
def indep (a b : FPath) : Bool :=
  !a.isPrefixOf b && !b.isPrefixOf a

/-! ### Path prefix and independence lemmas -/

theorem indep_iff {a b : FPath} : indep a b = true ↔ ¬ a <+: b ∧ ¬ b <+: a := by
  simp [indep, ← List.isPrefixOf_iff_prefix]

theorem indep_symm {a b : FPath} (h : indep a b = true) : indep b a = true := by
  rw [indep_iff] at h ⊢; exact ⟨h.2, h.1⟩

theorem indep_ne {a b : FPath} (h : indep a b = true) : a ≠ b := by
  rw [indep_iff] at h
  intro hab; exact h.1 (hab ▸ List.prefix_refl a)

theorem indep_ne_nil_left {a b : FPath} (h : indep a b = true) : a ≠ [] := by
  rw [indep_iff] at h
  intro hab; exact h.1 (hab ▸ List.nil_prefix)

theorem indep_ne_nil_right {a b : FPath} (h : indep a b = true) : b ≠ [] :=
  indep_ne_nil_left (indep_symm h)

theorem prefix_or_prefix_of_prefix_append {a b t : FPath} (h : a <+: b ++ t) :
    a <+: b ∨ b <+: a := by
  rcases Nat.le_total a.length b.length with hl | hl
  · exact Or.inl (List.prefix_of_prefix_length_le h (List.prefix_append b t) hl)
  · exact Or.inr (List.prefix_of_prefix_length_le (List.prefix_append b t) h hl)

/-- Extending the second component keeps independence. -/
theorem indep_append_right {q p : FPath} (h : indep q p = true) (a : FPath) :
    indep q (p ++ a) = true := by
  rw [indep_iff] at h ⊢
  refine ⟨fun hq => ?_, fun hq => h.2 ((List.prefix_append p a).trans hq)⟩
  rcases prefix_or_prefix_of_prefix_append hq with h1 | h1
  · exact h.1 h1
  · exact h.2 h1

/-- Extending both components keeps independence. -/
theorem indep_append_both {p dst : FPath} (h : indep p dst = true) (a b : FPath) :
    indep (p ++ a) (dst ++ b) = true :=
  indep_symm (indep_append_right (indep_symm (indep_append_right h b)) a)

/-- Two distinct single-segment extensions of the same path are
independent. -/
theorem indep_snoc_ne {p : FPath} {x y : String} (h : x ≠ y) :
    indep (p ++ [x]) (p ++ [y]) = true := by
  rw [indep_iff]
  constructor
  · intro hp
    have := List.IsPrefix.eq_of_length hp (by simp)
    simp at this
    exact h this
  · intro hp
    have := List.IsPrefix.eq_of_length hp (by simp)
    simp at this
    exact h this.symm

theorem prefix_snoc_cases {q p : FPath} {x : String} (h : q <+: p ++ [x]) :
    q <+: p ∨ q = p ++ [x] := by
  rcases Nat.lt_or_ge q.length (p ++ [x]).length with hl | hl
  · left
    refine List.prefix_of_prefix_length_le h (List.prefix_append p [x]) ?_
    simpa using Nat.lt_succ_iff.mp (by simpa using hl)
  · right
    exact List.IsPrefix.eq_of_length h (Nat.le_antisymm h.length_le hl)

/-! ### Directory-entry list lemmas -/

theorem findEntry_replaceEntry_self {es : List (String × Node)} {k : String} {n : Node}
    (h : (findEntry es k).isSome) : findEntry (replaceEntry es k n) k = some n := by
  induction es with
  | nil => simp [findEntry] at h
  | cons e rest ih =>
      obtain ⟨a, b⟩ := e
      by_cases hk : a = k
      · subst hk; simp [findEntry, replaceEntry]
      · simp [findEntry, replaceEntry, hk] at h ⊢
        exact ih h

theorem findEntry_replaceEntry_ne {es : List (String × Node)} {k j : String} {n : Node}
    (h : j ≠ k) : findEntry (replaceEntry es k n) j = findEntry es j := by
  induction es with
  | nil => simp [replaceEntry]
  | cons e rest ih =>
      obtain ⟨a, b⟩ := e
      by_cases hk : a = k
      · subst hk
        simp [findEntry, replaceEntry, Ne.symm h]
      · by_cases hj : a = j <;> simp [findEntry, replaceEntry, hk, hj, ih, h]

theorem replaceEntry_of_none {es : List (String × Node)} {k : String} {n : Node}
    (h : findEntry es k = none) : replaceEntry es k n = es := by
  induction es with
  | nil => simp [replaceEntry]
  | cons e rest ih =>
      obtain ⟨a, b⟩ := e
      by_cases hk : a = k
      · simp [findEntry, hk] at h
      · simp [findEntry, hk] at h
        simp [replaceEntry, hk, ih h]

theorem keys_replaceEntry (es : List (String × Node)) (k : String) (n : Node) :
    (replaceEntry es k n).map Prod.fst = es.map Prod.fst := by
  induction es with
  | nil => simp [replaceEntry]
  | cons e rest ih =>
      obtain ⟨a, b⟩ := e
      by_cases hk : a = k <;> simp [replaceEntry, hk, ih]

theorem findEntry_eq_none_iff {es : List (String × Node)} {k : String} :
    findEntry es k = none ↔ k ∉ es.map Prod.fst := by
  induction es with
  | nil => simp [findEntry]
  | cons e rest ih =>
      obtain ⟨a, b⟩ := e
      by_cases hk : a = k
      · subst hk; simp [findEntry]
      · simp [findEntry, hk, ih, Ne.symm hk]

theorem findEntry_eraseEntry_self {es : List (String × Node)} {k : String}
    (h : nodupKeys es = true) : findEntry (eraseEntry es k) k = none := by
  induction es with
  | nil => simp [eraseEntry, findEntry]
  | cons e rest ih =>
      obtain ⟨a, b⟩ := e
      simp [nodupKeys] at h
      by_cases hk : a = k
      · subst hk
        simp [eraseEntry, findEntry_eq_none_iff]
        simpa using h.1
      · simp [eraseEntry, findEntry, hk]
        exact ih h.2

theorem findEntry_eraseEntry_ne {es : List (String × Node)} {k j : String}
    (h : j ≠ k) : findEntry (eraseEntry es k) j = findEntry es j := by
  induction es with
  | nil => simp [eraseEntry]
  | cons e rest ih =>
      obtain ⟨a, b⟩ := e
      by_cases hk : a = k
      · subst hk
        simp [eraseEntry, findEntry, Ne.symm h]
      · by_cases hj : a = j <;> simp [eraseEntry, findEntry, hk, hj, ih, h]

theorem findEntry_append_of_some {es es2 : List (String × Node)} {k : String} {c : Node}
    (h : findEntry es k = some c) : findEntry (es ++ es2) k = some c := by
  induction es with
  | nil => simp [findEntry] at h
  | cons e rest ih =>
      obtain ⟨a, b⟩ := e
      by_cases hk : a = k <;> simp_all [findEntry]

theorem findEntry_append_of_none {es es2 : List (String × Node)} {k : String}
    (h : findEntry es k = none) : findEntry (es ++ es2) k = findEntry es2 k := by
  induction es with
  | nil => simp
  | cons e rest ih =>
      obtain ⟨a, b⟩ := e
      by_cases hk : a = k <;> simp_all [findEntry]

theorem nodupKeys_replaceEntry {es : List (String × Node)} {k : String} {n : Node}
    (h : nodupKeys es = true) : nodupKeys (replaceEntry es k n) = true := by
  induction es with
  | nil => simpa [replaceEntry] using h
  | cons e rest ih =>
      obtain ⟨a, b⟩ := e
      simp [nodupKeys] at h
      by_cases hk : a = k
      · simpa [replaceEntry, hk, nodupKeys] using h
      · simp [replaceEntry, hk, nodupKeys, keys_replaceEntry]
        exact ⟨h.1, ih h.2⟩

theorem keys_eraseEntry_sublist (es : List (String × Node)) (k : String) :
    ((eraseEntry es k).map Prod.fst).Sublist (es.map Prod.fst) := by
  induction es with
  | nil => simp [eraseEntry]
  | cons e rest ih =>
      obtain ⟨a, b⟩ := e
      by_cases hk : a = k
      · simp [eraseEntry, hk]
      · simpa [eraseEntry, hk] using ih

theorem nodupKeys_iff_nodup {es : List (String × Node)} :
    nodupKeys es = true ↔ (es.map Prod.fst).Nodup := by
  induction es with
  | nil => simp [nodupKeys]
  | cons e rest ih =>
      obtain ⟨a, b⟩ := e
      simp [nodupKeys, ih]

theorem nodupKeys_eraseEntry {es : List (String × Node)} {k : String}
    (h : nodupKeys es = true) : nodupKeys (eraseEntry es k) = true := by
  rw [nodupKeys_iff_nodup] at h ⊢
  exact (keys_eraseEntry_sublist es k).nodup h

theorem nodupKeys_append_fresh {es : List (String × Node)} {k : String} {n : Node}
    (h : nodupKeys es = true) (hk : findEntry es k = none) :
    nodupKeys (es ++ [(k, n)]) = true := by
  rw [nodupKeys_iff_nodup] at h ⊢
  rw [findEntry_eq_none_iff] at hk
  simp [List.nodup_append, h]
  intro a ha
  exact hk (List.mem_map_of_mem Prod.fst ha)

theorem entriesWF_findEntry {es : List (String × Node)} {k : String} {c : Node}
    (h : entriesWF es = true) (hf : findEntry es k = some c) : c.wf = true := by
  induction es with
  | nil => simp [findEntry] at hf
  | cons e rest ih =>
      obtain ⟨a, b⟩ := e
      simp [entriesWF] at h
      by_cases hk : a = k
      · simp [findEntry, hk] at hf
        exact hf ▸ h.1
      · simp [findEntry, hk] at hf
        exact ih h.2 hf

theorem entriesWF_replaceEntry {es : List (String × Node)} {k : String} {n : Node}
    (h : entriesWF es = true) (hn : n.wf = true) :
    entriesWF (replaceEntry es k n) = true := by
  induction es with
  | nil => simpa [replaceEntry] using h
  | cons e rest ih =>
      obtain ⟨a, b⟩ := e
      simp [entriesWF] at h
      by_cases hk : a = k
      · simp [replaceEntry, hk, entriesWF]
        exact ⟨hn, h.2⟩
      · simp [replaceEntry, hk, entriesWF]
        exact ⟨h.1, ih h.2⟩

theorem entriesWF_eraseEntry {es : List (String × Node)} {k : String}
    (h : entriesWF es = true) : entriesWF (eraseEntry es k) = true := by
  induction es with
  | nil => simpa [eraseEntry] using h
  | cons e rest ih =>
      obtain ⟨a, b⟩ := e
      simp [entriesWF] at h
      by_cases hk : a = k
      · simp [eraseEntry, hk, h.2]
      · simp [eraseEntry, hk, entriesWF]
        exact ⟨h.1, ih h.2⟩

theorem entriesWF_append_one {es : List (String × Node)} {k : String} {n : Node}
    (h : entriesWF es = true) (hn : n.wf = true) :
    entriesWF (es ++ [(k, n)]) = true := by
  induction es with
  | nil => simp [entriesWF, hn]
  | cons e rest ih =>
      obtain ⟨a, b⟩ := e
      simp [entriesWF] at h
      simp [entriesWF, h.1]
      exact ih h.2

/-! ### Lookup lemmas -/

@[simp] theorem lookup_nil (n : Node) : n.lookup [] = some n := by
  cases n <;> rfl

theorem lookup_append (n : Node) (a b : FPath) :
    n.lookup (a ++ b) = (n.lookup a).bind (fun m => m.lookup b) := by
  induction a generalizing n with
  | nil => simp
  | cons x a' ih =>
      cases n with
      | file c => simp [Node.lookup]
      | special => simp [Node.lookup]
      | dir es =>
          simp only [List.cons_append, Node.lookup]
          cases findEntry es x with
          | none => simp
          | some c => exact ih c

theorem lookup_cons_eq_none_of_nonDir {n : Node} {x : String} {q : FPath}
    (h : ∀ es, n ≠ .dir es) : n.lookup (x :: q) = none := by
  cases n with
  | file c => rfl
  | special => rfl
  | dir es => exact absurd rfl (h es)

/-- A proper prefix of an existing path resolves to a directory. -/
theorem lookup_pfx_dir {n : Node} {a : FPath} {x : String} {b : FPath} {m : Node}
    (h : n.lookup (a ++ x :: b) = some m) :
    ∃ es, n.lookup a = some (.dir es) ∧ ∃ c, findEntry es x = some c ∧ c.lookup b = some m := by
  rw [lookup_append] at h
  cases hk : n.lookup a with
  | none => rw [hk] at h; simp at h
  | some k =>
      rw [hk] at h
      simp at h
      cases k with
      | file c => simp [Node.lookup] at h
      | special => simp [Node.lookup] at h
      | dir es =>
          refine ⟨es, rfl, ?_⟩
          simp only [Node.lookup] at h
          cases hf : findEntry es x with
          | none => rw [hf] at h; simp at h
          | some c => rw [hf] at h; exact ⟨c, rfl, h⟩

theorem wf_dir_iff {es : List (String × Node)} :
    Node.wf (.dir es) = true ↔ nodupKeys es = true ∧ entriesWF es = true := by
  simp [Node.wf]

theorem wf_lookup {n : Node} {q : FPath} {m : Node}
    (hwf : n.wf = true) (h : n.lookup q = some m) : m.wf = true := by
  induction q generalizing n with
  | nil => simp at h; exact h ▸ hwf
  | cons x q' ih =>
      cases n with
      | file c => simp [Node.lookup] at h
      | special => simp [Node.lookup] at h
      | dir es =>
          rw [wf_dir_iff] at hwf
          simp only [Node.lookup] at h
          cases hf : findEntry es x with
          | none => rw [hf] at h; simp at h
          | some c =>
              rw [hf] at h
              exact ih (entriesWF_findEntry hwf.2 hf) h

/-! ### buildChain / freshDirs lemmas -/

@[simp] theorem setAt_nil (n m : Node) : n.setAt [] m = m := by
  cases n <;> rfl

theorem buildChain_lookup_append (r : FPath) (m : Node) (s : FPath) :
    (buildChain r m).lookup (r ++ s) = m.lookup s := by
  induction r with
  | nil => simp [buildChain]
  | cons x r' ih => simpa [buildChain, Node.lookup, findEntry] using ih

theorem buildChain_lookup_indep {r q : FPath} (m : Node)
    (h1 : ¬ r <+: q) (h2 : ¬ q <+: r) : (buildChain r m).lookup q = none := by
  induction r generalizing q with
  | nil => exact absurd List.nil_prefix h1
  | cons x r' ih =>
      cases q with
      | nil => exact absurd List.nil_prefix h2
      | cons y q' =>
          by_cases hxy : x = y
          · subst hxy
            simp only [List.cons_prefix_cons, true_and] at h1 h2
            simpa [buildChain, Node.lookup, findEntry] using ih h1 h2
          · simp [buildChain, Node.lookup, findEntry, hxy]

theorem buildChain_wf {m : Node} (hm : m.wf = true) (r : FPath) :
    (buildChain r m).wf = true := by
  induction r with
  | nil => simpa [buildChain]
  | cons x r' ih => simp [buildChain, wf_dir_iff, nodupKeys, entriesWF, ih]

theorem freshDirs_eq_buildChain (r : FPath) : freshDirs r = buildChain r (.dir []) := by
  induction r with
  | nil => rfl
  | cons x r' ih => simp [freshDirs, buildChain, ih]

theorem freshDirs_lookup_self (r : FPath) : (freshDirs r).lookup r = some (.dir []) := by
  rw [freshDirs_eq_buildChain]
  simpa using buildChain_lookup_append r (.dir []) []

theorem freshDirs_wf (r : FPath) : (freshDirs r).wf = true := by
  rw [freshDirs_eq_buildChain]
  exact buildChain_wf (by simp [wf_dir_iff, nodupKeys, entriesWF]) r

/-! ### setAt lemmas -/

@[simp] theorem lookup_cons_dir (es : List (String × Node)) (x : String) (q : FPath) :
    (Node.dir es).lookup (x :: q) =
      (match findEntry es x with | some c => c.lookup q | none => none) := rfl

theorem lookup_setAt_append {fs : Node} {r : FPath} {m : Node} {es0 : List (String × Node)}
    (hr : r ≠ []) (hp : fs.lookup r.dropLast = some (.dir es0)) (s : FPath) :
    (fs.setAt r m).lookup (r ++ s) = m.lookup s := by
  induction r generalizing fs es0 with
  | nil => exact absurd rfl hr
  | cons x r' ih =>
      cases hr' : r' with
      | nil =>
          subst hr'
          simp only [List.dropLast_single, lookup_nil, Option.some_inj] at hp
          subst hp
          cases hf : findEntry es0 x with
          | some c =>
              have hs : findEntry (replaceEntry es0 x m) x = some m :=
                findEntry_replaceEntry_self (by simp [hf])
              simp [Node.setAt, hf, hs]
          | none =>
              have hs : findEntry (es0 ++ [(x, m)]) x = some m := by
                rw [findEntry_append_of_none hf]; simp [findEntry]
              simp [Node.setAt, hf, hs, buildChain]
      | cons z r'' =>
          rw [← hr']
          have hr'ne : r' ≠ [] := by simp [hr']
          rw [List.dropLast_cons_of_ne_nil hr'ne] at hp
          cases fs with
          | file c => simp [Node.lookup] at hp
          | special => simp [Node.lookup] at hp
          | dir es =>
              simp only [lookup_cons_dir] at hp
              cases hf : findEntry es x with
              | none => rw [hf] at hp; simp at hp
              | some c =>
                  rw [hf] at hp
                  have hs : findEntry (replaceEntry es x (c.setAt r' m)) x
                      = some (c.setAt r' m) := findEntry_replaceEntry_self (by simp [hf])
                  simp only [Node.setAt, hf, List.cons_append, lookup_cons_dir, hs]
                  exact ih hr'ne hp

theorem lookup_setAt_indep {fs : Node} {r q : FPath} {m : Node}
    (h1 : ¬ r <+: q) (h2 : ¬ q <+: r) : (fs.setAt r m).lookup q = fs.lookup q := by
  induction r generalizing fs q with
  | nil => exact absurd List.nil_prefix h1
  | cons x r' ih =>
      cases q with
      | nil => exact absurd List.nil_prefix h2
      | cons y q' =>
          cases fs with
          | file c => simp [Node.setAt]
          | special => simp [Node.setAt]
          | dir es =>
              by_cases hxy : x = y
              · subst hxy
                simp only [List.cons_prefix_cons, true_and] at h1 h2
                cases hf : findEntry es x with
                | some c =>
                    have hs : findEntry (replaceEntry es x (c.setAt r' m)) x
                        = some (c.setAt r' m) := findEntry_replaceEntry_self (by simp [hf])
                    simp [Node.setAt, hf, hs, ih h1 h2]
                | none =>
                    have hs : findEntry (es ++ [(x, buildChain r' m)]) x
                        = some (buildChain r' m) := by
                      rw [findEntry_append_of_none hf]; simp [findEntry]
                    simp [Node.setAt, hf, hs, buildChain_lookup_indep m h1 h2]
              · cases hf : findEntry es x with
                | some c =>
                    have hs : findEntry (replaceEntry es x (c.setAt r' m)) y
                        = findEntry es y := findEntry_replaceEntry_ne (fun h => hxy h.symm)
                    simp [Node.setAt, hf, hs]
                | none =>
                    cases hfy : findEntry es y with
                    | some d =>
                        simp [Node.setAt, hf, findEntry_append_of_some hfy, hfy]
                    | none =>
                        have hs : findEntry (es ++ [(x, buildChain r' m)]) y = none := by
                          rw [findEntry_append_of_none hfy]; simp [findEntry, hxy]
                        simp [Node.setAt, hf, hs, hfy]

theorem lookup_setAt_pfx_dir {fs : Node} {r q : FPath} {m : Node} {es1 : List (String × Node)}
    (hq : q <+: r) (hne : q ≠ r) (hd : fs.lookup q = some (.dir es1)) :
    ∃ es2, (fs.setAt r m).lookup q = some (.dir es2) := by
  induction r generalizing fs q es1 with
  | nil => exact absurd (List.prefix_nil.mp hq) hne
  | cons x r' ih =>
      cases q with
      | nil =>
          simp only [lookup_nil, Option.some_inj] at hd
          subst hd
          cases hf : findEntry es1 x with
          | some c => exact ⟨replaceEntry es1 x (c.setAt r' m), by simp [Node.setAt, hf]⟩
          | none => exact ⟨es1 ++ [(x, buildChain r' m)], by simp [Node.setAt, hf]⟩
      | cons y q' =>
          rw [List.cons_prefix_cons] at hq
          obtain ⟨rfl, hq'⟩ := hq
          cases fs with
          | file c => simp [Node.lookup] at hd
          | special => simp [Node.lookup] at hd
          | dir es =>
              simp only [lookup_cons_dir] at hd
              cases hf : findEntry es y with
              | none => rw [hf] at hd; simp at hd
              | some c =>
                  rw [hf] at hd
                  have hne' : q' ≠ r' := fun h => hne (by rw [h])
                  obtain ⟨es2, h2⟩ := ih hq' hne' hd
                  have hs : findEntry (replaceEntry es y (c.setAt r' m)) y
                      = some (c.setAt r' m) := findEntry_replaceEntry_self (by simp [hf])
                  exact ⟨es2, by simp only [Node.setAt, hf, lookup_cons_dir, hs]; exact h2⟩

theorem setAt_wf {fs m : Node} {r : FPath} (hf : fs.wf = true) (hm : m.wf = true) :
    (fs.setAt r m).wf = true := by
  induction r generalizing fs with
  | nil => simpa using hm
  | cons x r' ih =>
      cases fs with
      | file c => simpa [Node.setAt] using hf
      | special => simpa [Node.setAt] using hf
      | dir es =>
          rw [wf_dir_iff] at hf
          cases hfe : findEntry es x with
          | some c =>
              have hcwf : c.wf = true := entriesWF_findEntry hf.2 hfe
              simp only [Node.setAt, hfe, wf_dir_iff]
              exact ⟨nodupKeys_replaceEntry hf.1, entriesWF_replaceEntry hf.2 (ih hcwf)⟩
          | none =>
              simp only [Node.setAt, hfe, wf_dir_iff]
              exact ⟨nodupKeys_append_fresh hf.1 hfe,
                entriesWF_append_one hf.2 (buildChain_wf hm r')⟩

/-! ### removeAt lemmas -/

theorem lookup_removeAt_self {fs : Node} {r : FPath}
    (hwf : fs.wf = true) (hr : r ≠ []) : (fs.removeAt r).lookup r = none := by
  induction r generalizing fs with
  | nil => exact absurd rfl hr
  | cons x r' ih =>
      cases fs with
      | file c => simp [Node.removeAt, Node.lookup]
      | special => simp [Node.removeAt, Node.lookup]
      | dir es =>
          rw [wf_dir_iff] at hwf
          cases r' with
          | nil => simp [Node.removeAt, findEntry_eraseEntry_self hwf.1]
          | cons z r'' =>
              cases hf : findEntry es x with
              | none => simp [Node.removeAt, hf]
              | some c =>
                  have hcwf : c.wf = true := entriesWF_findEntry hwf.2 hf
                  have hs : findEntry (replaceEntry es x (c.removeAt (z :: r''))) x
                      = some (c.removeAt (z :: r'')) :=
                    findEntry_replaceEntry_self (by simp [hf])
                  simp [Node.removeAt, hf, hs, ih hcwf (by simp)]

theorem lookup_removeAt_indep {fs : Node} {r q : FPath}
    (h1 : ¬ r <+: q) (h2 : ¬ q <+: r) : (fs.removeAt r).lookup q = fs.lookup q := by
  induction r generalizing fs q with
  | nil => exact absurd List.nil_prefix h1
  | cons x r' ih =>
      cases q with
      | nil => exact absurd List.nil_prefix h2
      | cons y q' =>
          cases fs with
          | file c => simp [Node.removeAt]
          | special => simp [Node.removeAt]
          | dir es =>
              by_cases hxy : x = y
              · subst hxy
                simp only [List.cons_prefix_cons, true_and] at h1 h2
                cases r' with
                | nil => exact absurd List.nil_prefix h1
                | cons z r'' =>
                    cases hf : findEntry es x with
                    | none => simp [Node.removeAt, hf]
                    | some c =>
                        have hs : findEntry (replaceEntry es x (c.removeAt (z :: r''))) x
                            = some (c.removeAt (z :: r'')) :=
                          findEntry_replaceEntry_self (by simp [hf])
                        simp [Node.removeAt, hf, hs, ih h1 h2]
              · cases r' with
                | nil =>
                    simp [Node.removeAt, findEntry_eraseEntry_ne (fun h => hxy h.symm)]
                | cons z r'' =>
                    cases hf : findEntry es x with
                    | none => simp [Node.removeAt, hf]
                    | some c =>
                        have hs : findEntry (replaceEntry es x (c.removeAt (z :: r''))) y
                            = findEntry es y := findEntry_replaceEntry_ne (fun h => hxy h.symm)
                        simp [Node.removeAt, hf, hs]

theorem lookup_removeAt_dir {fs : Node} {r q : FPath} {es1 : List (String × Node)}
    (h1 : ¬ r <+: q) (hd : fs.lookup q = some (.dir es1)) :
    ∃ es2, (fs.removeAt r).lookup q = some (.dir es2) := by
  induction r generalizing fs q es1 with
  | nil => exact absurd List.nil_prefix h1
  | cons x r' ih =>
      cases q with
      | nil =>
          simp only [lookup_nil, Option.some_inj] at hd
          subst hd
          cases r' with
          | nil => exact ⟨eraseEntry es1 x, by simp [Node.removeAt]⟩
          | cons z r'' =>
              cases hf : findEntry es1 x with
              | none => exact ⟨es1, by simp [Node.removeAt, hf]⟩
              | some c =>
                  exact ⟨replaceEntry es1 x (c.removeAt (z :: r'')),
                    by simp [Node.removeAt, hf]⟩
      | cons y q' =>
          cases fs with
          | file c => simp [Node.lookup] at hd
          | special => simp [Node.lookup] at hd
          | dir es =>
              simp only [lookup_cons_dir] at hd
              cases hfy : findEntry es y with
              | none => simp only [hfy] at hd; exact absurd hd (by simp)
              | some c =>
                  simp only [hfy] at hd
                  by_cases hxy : x = y
                  · subst hxy
                    simp only [List.cons_prefix_cons, true_and] at h1
                    cases r' with
                    | nil => exact absurd List.nil_prefix h1
                    | cons z r'' =>
                        obtain ⟨es2, h2⟩ := ih h1 hd
                        have hs : findEntry (replaceEntry es x (c.removeAt (z :: r''))) x
                            = some (c.removeAt (z :: r'')) :=
                          findEntry_replaceEntry_self (by simp [hfy])
                        exact ⟨es2, by
                          simp only [Node.removeAt, hfy, lookup_cons_dir, hs]
                          exact h2⟩
                  · cases r' with
                    | nil =>
                        exact ⟨es1, by
                          simp [Node.removeAt,
                            findEntry_eraseEntry_ne (fun h => hxy h.symm), hfy, hd]⟩
                    | cons z r'' =>
                        cases hf : findEntry es x with
                        | none => exact ⟨es1, by simp [Node.removeAt, hf, hfy, hd]⟩
                        | some d =>
                            have hs : findEntry (replaceEntry es x (d.removeAt (z :: r''))) y
                                = findEntry es y :=
                              findEntry_replaceEntry_ne (fun h => hxy h.symm)
                            exact ⟨es1, by simp [Node.removeAt, hf, hs, hfy, hd]⟩

theorem removeAt_wf {fs : Node} {r : FPath} (hf : fs.wf = true) :
    (fs.removeAt r).wf = true := by
  induction r generalizing fs with
  | nil => simpa [Node.removeAt] using hf
  | cons x r' ih =>
      cases fs with
      | file c => simpa [Node.removeAt] using hf
      | special => simpa [Node.removeAt] using hf
      | dir es =>
          rw [wf_dir_iff] at hf
          cases r' with
          | nil =>
              simp [Node.removeAt, wf_dir_iff]
              exact ⟨nodupKeys_eraseEntry hf.1, entriesWF_eraseEntry hf.2⟩
          | cons z r'' =>
              cases hfe : findEntry es x with
              | none => simp [Node.removeAt, hfe, wf_dir_iff]; exact hf
              | some c =>
                  have hcwf : c.wf = true := entriesWF_findEntry hf.2 hfe
                  simp [Node.removeAt, hfe, wf_dir_iff]
                  exact ⟨nodupKeys_replaceEntry hf.1, entriesWF_replaceEntry hf.2 (ih hcwf)⟩

/-! ### mkdirAll / mkdirIfNotExist lemmas -/

theorem freshDirs_lookup_of_not_pfx {r q : FPath} (h : ¬ q <+: r) :
    (freshDirs r).lookup q = none := by
  induction r generalizing q with
  | nil =>
      cases q with
      | nil => exact absurd List.nil_prefix h
      | cons y q' => simp [freshDirs, Node.lookup, findEntry]
  | cons x r' ih =>
      cases q with
      | nil => exact absurd List.nil_prefix h
      | cons y q' =>
          by_cases hxy : x = y
          · subst hxy
            simp only [List.cons_prefix_cons, true_and] at h
            simpa [freshDirs, findEntry] using ih h
          · simp [freshDirs, findEntry, hxy]

theorem mkdirAll_err_id {fs fs1 : Node} {r : FPath} {e : Err}
    (h : fs.mkdirAll r = (fs1, some e)) : fs1 = fs := by
  cases fs with
  | file c => simp [Node.mkdirAll] at h; exact h.1.symm
  | special => simp [Node.mkdirAll] at h; exact h.1.symm
  | dir es =>
      cases r with
      | nil => simp [Node.mkdirAll] at h
      | cons x rest =>
          cases hf : findEntry es x with
          | none => simp [Node.mkdirAll, hf] at h
          | some c =>
              rcases hm : c.mkdirAll rest with ⟨c', e'⟩
              cases e' with
              | none => simp [Node.mkdirAll, hf, hm] at h
              | some e2 =>
                  simp [Node.mkdirAll, hf, hm] at h
                  exact h.1.symm

theorem mkdirAll_frame {fs fs1 : Node} {r q : FPath}
    (h : fs.mkdirAll r = (fs1, none)) (hq : ¬ q <+: r) :
    fs1.lookup q = fs.lookup q := by
  induction r generalizing fs fs1 q with
  | nil =>
      cases fs with
      | file c => simp [Node.mkdirAll] at h
      | special => simp [Node.mkdirAll] at h
      | dir es => simp [Node.mkdirAll] at h; rw [h]
  | cons x rest ih =>
      cases q with
      | nil => exact absurd List.nil_prefix hq
      | cons y q' =>
          cases fs with
          | file c => simp [Node.mkdirAll] at h
          | special => simp [Node.mkdirAll] at h
          | dir es =>
              by_cases hxy : x = y
              · subst hxy
                simp only [List.cons_prefix_cons, true_and] at hq
                cases hf : findEntry es x with
                | some c =>
                    rcases hm : c.mkdirAll rest with ⟨c', e'⟩
                    cases e' with
                    | some e2 => simp [Node.mkdirAll, hf, hm] at h
                    | none =>
                        simp only [Node.mkdirAll, hf, hm, Prod.mk.injEq] at h
                        obtain ⟨h1, -⟩ := h
                        subst h1
                        have hs : findEntry (replaceEntry es x c') x = some c' :=
                          findEntry_replaceEntry_self (by simp [hf])
                        simp [hs, hf, ih hm hq]
                | none =>
                    simp only [Node.mkdirAll, hf, Prod.mk.injEq] at h
                    obtain ⟨h1, -⟩ := h
                    subst h1
                    have hs : findEntry (es ++ [(x, freshDirs rest)]) x
                        = some (freshDirs rest) := by
                      rw [findEntry_append_of_none hf]; simp [findEntry]
                    simp [hs, hf, freshDirs_lookup_of_not_pfx hq]
              · cases hf : findEntry es x with
                | some c =>
                    rcases hm : c.mkdirAll rest with ⟨c', e'⟩
                    cases e' with
                    | some e2 => simp [Node.mkdirAll, hf, hm] at h
                    | none =>
                        simp only [Node.mkdirAll, hf, hm, Prod.mk.injEq] at h
                        obtain ⟨h1, -⟩ := h
                        subst h1
                        simp [findEntry_replaceEntry_ne (fun hh => hxy hh.symm)]
                | none =>
                    simp only [Node.mkdirAll, hf, Prod.mk.injEq] at h
                    obtain ⟨h1, -⟩ := h
                    subst h1
                    cases hfy : findEntry es y with
                    | some d => simp [findEntry_append_of_some hfy, hfy]
                    | none =>
                        have hs : findEntry (es ++ [(x, freshDirs rest)]) y = none := by
                          rw [findEntry_append_of_none hfy]; simp [findEntry, hxy]
                        simp [hs, hfy]

theorem mkdirAll_dir_preserved {fs fs1 : Node} {r q : FPath} {es1 : List (String × Node)}
    (h : fs.mkdirAll r = (fs1, none)) (hd : fs.lookup q = some (.dir es1)) :
    ∃ es2, fs1.lookup q = some (.dir es2) := by
  induction r generalizing fs fs1 q es1 with
  | nil =>
      cases fs with
      | file c => simp [Node.mkdirAll] at h
      | special => simp [Node.mkdirAll] at h
      | dir es => simp [Node.mkdirAll] at h; exact ⟨es1, h ▸ hd⟩
  | cons x rest ih =>
      cases fs with
      | file c => simp [Node.mkdirAll] at h
      | special => simp [Node.mkdirAll] at h
      | dir es =>
          cases q with
          | nil =>
              simp only [lookup_nil, Option.some_inj] at hd
              cases hd
              cases hf : findEntry es1 x with
              | some c =>
                  rcases hm : c.mkdirAll rest with ⟨c', e'⟩
                  cases e' with
                  | some e2 => simp [Node.mkdirAll, hf, hm] at h
                  | none =>
                      simp only [Node.mkdirAll, hf, hm, Prod.mk.injEq] at h
                      exact ⟨replaceEntry es1 x c', by rw [← h.1]; simp⟩
              | none =>
                  simp only [Node.mkdirAll, hf, Prod.mk.injEq] at h
                  exact ⟨es1 ++ [(x, freshDirs rest)], by rw [← h.1]; simp⟩
          | cons y q' =>
              simp only [lookup_cons_dir] at hd
              cases hfy : findEntry es y with
              | none => simp only [hfy] at hd; exact absurd hd (by simp)
              | some c =>
                  simp only [hfy] at hd
                  by_cases hxy : x = y
                  · subst hxy
                    rcases hm : c.mkdirAll rest with ⟨c', e'⟩
                    cases e' with
                    | some e2 => simp [Node.mkdirAll, hfy, hm] at h
                    | none =>
                        simp only [Node.mkdirAll, hfy, hm, Prod.mk.injEq] at h
                        obtain ⟨h1, -⟩ := h
                        subst h1
                        obtain ⟨es2, h2⟩ := ih hm hd
                        have hs : findEntry (replaceEntry es x c') x = some c' :=
                          findEntry_replaceEntry_self (by simp [hfy])
                        exact ⟨es2, by simp only [lookup_cons_dir, hs]; exact h2⟩
                  · cases hf : findEntry es x with
                    | some d =>
                        rcases hm : d.mkdirAll rest with ⟨c', e'⟩
                        cases e' with
                        | some e2 => simp [Node.mkdirAll, hf, hm] at h
                        | none =>
                            simp only [Node.mkdirAll, hf, hm, Prod.mk.injEq] at h
                            obtain ⟨h1, -⟩ := h
                            subst h1
                            exact ⟨es1, by
                              simp [findEntry_replaceEntry_ne (fun hh => hxy hh.symm),
                                hfy, hd]⟩
                    | none =>
                        simp only [Node.mkdirAll, hf, Prod.mk.injEq] at h
                        obtain ⟨h1, -⟩ := h
                        subst h1
                        exact ⟨es1, by simp [findEntry_append_of_some hfy, hfy, hd]⟩

theorem mkdirAll_target {fs fs1 : Node} {r : FPath}
    (h : fs.mkdirAll r = (fs1, none)) :
    ∃ es, fs1.lookup r = some (.dir es) := by
  induction r generalizing fs fs1 with
  | nil =>
      cases fs with
      | file c => simp [Node.mkdirAll] at h
      | special => simp [Node.mkdirAll] at h
      | dir es =>
          simp [Node.mkdirAll] at h
          exact ⟨es, by rw [← h]; simp⟩
  | cons x rest ih =>
      cases fs with
      | file c => simp [Node.mkdirAll] at h
      | special => simp [Node.mkdirAll] at h
      | dir es =>
          cases hf : findEntry es x with
          | some c =>
              rcases hm : c.mkdirAll rest with ⟨c', e'⟩
              cases e' with
              | some e2 => simp [Node.mkdirAll, hf, hm] at h
              | none =>
                  simp only [Node.mkdirAll, hf, hm, Prod.mk.injEq] at h
                  obtain ⟨h1, -⟩ := h
                  subst h1
                  obtain ⟨es2, h2⟩ := ih hm
                  have hs : findEntry (replaceEntry es x c') x = some c' :=
                    findEntry_replaceEntry_self (by simp [hf])
                  exact ⟨es2, by simp only [lookup_cons_dir, hs]; exact h2⟩
          | none =>
              simp only [Node.mkdirAll, hf, Prod.mk.injEq] at h
              obtain ⟨h1, -⟩ := h
              subst h1
              have hs : findEntry (es ++ [(x, freshDirs rest)]) x
                  = some (freshDirs rest) := by
                rw [findEntry_append_of_none hf]; simp [findEntry]
              exact ⟨[], by simp only [lookup_cons_dir, hs, freshDirs_lookup_self]⟩

theorem mkdirAll_wf {fs fs1 : Node} {r : FPath}
    (h : fs.mkdirAll r = (fs1, none)) (hwf : fs.wf = true) : fs1.wf = true := by
  induction r generalizing fs fs1 with
  | nil =>
      cases fs with
      | file c => simp [Node.mkdirAll] at h
      | special => simp [Node.mkdirAll] at h
      | dir es => simp [Node.mkdirAll] at h; exact h ▸ hwf
  | cons x rest ih =>
      cases fs with
      | file c => simp [Node.mkdirAll] at h
      | special => simp [Node.mkdirAll] at h
      | dir es =>
          rw [wf_dir_iff] at hwf
          cases hf : findEntry es x with
          | some c =>
              rcases hm : c.mkdirAll rest with ⟨c', e'⟩
              cases e' with
              | some e2 => simp [Node.mkdirAll, hf, hm] at h
              | none =>
                  simp only [Node.mkdirAll, hf, hm, Prod.mk.injEq] at h
                  obtain ⟨h1, -⟩ := h
                  subst h1
                  have hcwf : c.wf = true := entriesWF_findEntry hwf.2 hf
                  rw [wf_dir_iff]
                  exact ⟨nodupKeys_replaceEntry hwf.1,
                    entriesWF_replaceEntry hwf.2 (ih hm hcwf)⟩
          | none =>
              simp only [Node.mkdirAll, hf, Prod.mk.injEq] at h
              obtain ⟨h1, -⟩ := h
              subst h1
              rw [wf_dir_iff]
              exact ⟨nodupKeys_append_fresh hwf.1 hf,
                entriesWF_append_one hwf.2 (freshDirs_wf rest)⟩

theorem mie_err_id {fs fs1 : Node} {r : FPath} {e : Err}
    (h : mkdirIfNotExist fs r = (fs1, some e)) : fs1 = fs := by
  unfold mkdirIfNotExist at h
  cases hl : fs.lookup r with
  | none => rw [hl] at h; exact mkdirAll_err_id h
  | some n =>
      rw [hl] at h
      cases n with
      | file c => simp at h; exact h.1.symm
      | special => simp at h; exact h.1.symm
      | dir es => simp at h

theorem mie_frame {fs fs1 : Node} {r q : FPath}
    (h : mkdirIfNotExist fs r = (fs1, none)) (hq : ¬ q <+: r) :
    fs1.lookup q = fs.lookup q := by
  unfold mkdirIfNotExist at h
  cases hl : fs.lookup r with
  | none => rw [hl] at h; exact mkdirAll_frame h hq
  | some n =>
      rw [hl] at h
      cases n with
      | file c => simp at h
      | special => simp at h
      | dir es => simp at h; rw [h]

theorem mie_dir_preserved {fs fs1 : Node} {r q : FPath} {es1 : List (String × Node)}
    (h : mkdirIfNotExist fs r = (fs1, none)) (hd : fs.lookup q = some (.dir es1)) :
    ∃ es2, fs1.lookup q = some (.dir es2) := by
  unfold mkdirIfNotExist at h
  cases hl : fs.lookup r with
  | none => rw [hl] at h; exact mkdirAll_dir_preserved h hd
  | some n =>
      rw [hl] at h
      cases n with
      | file c => simp at h
      | special => simp at h
      | dir es => simp at h; exact ⟨es1, h ▸ hd⟩

theorem mie_target {fs fs1 : Node} {r : FPath}
    (h : mkdirIfNotExist fs r = (fs1, none)) :
    ∃ es, fs1.lookup r = some (.dir es) := by
  unfold mkdirIfNotExist at h
  cases hl : fs.lookup r with
  | none => rw [hl] at h; exact mkdirAll_target h
  | some n =>
      rw [hl] at h
      cases n with
      | file c => simp at h
      | special => simp at h
      | dir es => simp at h; exact ⟨es, h ▸ hl⟩

theorem mie_wf {fs fs1 : Node} {r : FPath}
    (h : mkdirIfNotExist fs r = (fs1, none)) (hwf : fs.wf = true) : fs1.wf = true := by
  unfold mkdirIfNotExist at h
  cases hl : fs.lookup r with
  | none => rw [hl] at h; exact mkdirAll_wf h hwf
  | some n =>
      rw [hl] at h
      cases n with
      | file c => simp at h
      | special => simp at h
      | dir es => simp at h; exact h ▸ hwf

/-! ### rename lemmas -/

theorem rename_ok {fs fs' : Node} {src dst : FPath}
    (h : rename fs src dst = (fs', none)) (hne : src ≠ dst) :
    ∃ sn, fs.lookup src = some sn ∧
      fs' = (fs.removeAt src).setAt dst sn ∧
      ¬ src <+: dst ∧ ¬ dst <+: src ∧ src ≠ [] ∧ dst ≠ [] ∧
      (∃ es0, fs.lookup dst.dropLast = some (.dir es0)) ∧
      (∀ es1, fs.lookup dst = some (.dir es1) → es1 = [] ∧ ∃ esn, sn = .dir esn) ∧
      (∀ s, s ≠ [] → fs.lookup (dst ++ s) = none) := by
  unfold rename at h
  cases hsrc : fs.lookup src with
  | none => rw [hsrc] at h; simp at h
  | some sn =>
      simp only [hsrc] at h
      rw [if_neg hne] at h
      by_cases hpf : src.isPrefixOf dst = true
      · rw [if_pos hpf] at h; simp at h
      · rw [if_neg hpf] at h
        have hnpfx : ¬ src <+: dst := by
          rw [← List.isPrefixOf_iff_prefix]; exact hpf
        cases dst with
        | nil => simp at h
        | cons d0 dtail =>
            rw [if_neg (by simp)] at h
            set dst := d0 :: dtail with hdst
            have hdne : dst ≠ [] := by simp [hdst]
            have hnotdesc : (∀ s, s ≠ [] → fs.lookup (dst ++ s) = none) →
                ¬ dst <+: src := by
              intro hall hpfx
              obtain ⟨s, hs⟩ := hpfx
              have hsne : s ≠ [] := by
                intro hs0; rw [hs0, List.append_nil] at hs; exact hne hs.symm
              rw [← hs] at hsrc
              rw [hall s hsne] at hsrc
              cases hsrc
            cases hpar : fs.lookup dst.dropLast with
            | none => simp only [hpar] at h; simp at h
            | some pn =>
                simp only [hpar] at h
                cases pn with
                | file c => simp at h
                | special => simp at h
                | dir es0 =>
                    cases hdl : fs.lookup dst with
                    | none =>
                        simp only [hdl, Prod.mk.injEq] at h
                        obtain ⟨h1, -⟩ := h
                        have hall : ∀ s, s ≠ [] → fs.lookup (dst ++ s) = none := by
                          intro s hs
                          rw [lookup_append, hdl]; rfl
                        exact ⟨sn, rfl, h1.symm, hnpfx, hnotdesc hall, 
                          (fun h0 => by rw [h0] at hpf; simp [List.isPrefixOf] at hpf),
                          hdne, ⟨es0, rfl⟩,
                          (fun es1 hes1 => by simp at hes1), hall⟩
                    | some dn =>
                        simp only [hdl] at h
                        cases sn with
                        | dir esn =>
                            cases dn with
                            | file c => simp at h
                            | special => simp at h
                            | dir es1 =>
                                cases hes1 : es1 with
                                | cons a b => simp only [hes1] at h; simp at h
                                | nil =>
                                    simp only [hes1, List.isEmpty_nil, if_true,
                                      Prod.mk.injEq] at h
                                    obtain ⟨h1, -⟩ := h
                                    have hall : ∀ s, s ≠ [] →
                                        fs.lookup (dst ++ s) = none := by
                                      intro s hs
                                      rw [lookup_append, hdl, hes1]
                                      cases s with
                                      | nil => exact absurd rfl hs
                                      | cons y s' => simp [findEntry]
                                    refine ⟨.dir esn, rfl, h1.symm, hnpfx,
                                      hnotdesc hall,
                                      (fun h0 => by rw [h0] at hpf; simp [List.isPrefixOf] at hpf),
                                      hdne, ⟨es0, rfl⟩, ?_, hall⟩
                                    intro es1' hes1'
                                    simp only [Option.some_inj, Node.dir.injEq] at hes1'
                                    subst hes1'
                                    exact ⟨rfl, esn, rfl⟩
                        | file cs =>
                            cases dn with
                            | dir es1 => simp at h
                            | file c =>
                                simp only [Prod.mk.injEq] at h
                                obtain ⟨h1, -⟩ := h
                                have hall : ∀ s, s ≠ [] →
                                    fs.lookup (dst ++ s) = none := by
                                  intro s hs
                                  rw [lookup_append, hdl]
                                  cases s with
                                  | nil => exact absurd rfl hs
                                  | cons y s' => rfl
                                exact ⟨.file cs, rfl, h1.symm, hnpfx, hnotdesc hall,
                                  (fun h0 => by rw [h0] at hpf; simp [List.isPrefixOf] at hpf),
                                  hdne, ⟨es0, rfl⟩,
                                  (fun es1 hes1 => by simp at hes1),
                                  hall⟩
                            | special =>
                                simp only [Prod.mk.injEq] at h
                                obtain ⟨h1, -⟩ := h
                                have hall : ∀ s, s ≠ [] →
                                    fs.lookup (dst ++ s) = none := by
                                  intro s hs
                                  rw [lookup_append, hdl]
                                  cases s with
                                  | nil => exact absurd rfl hs
                                  | cons y s' => rfl
                                exact ⟨.file cs, rfl, h1.symm, hnpfx, hnotdesc hall,
                                  (fun h0 => by rw [h0] at hpf; simp [List.isPrefixOf] at hpf),
                                  hdne, ⟨es0, rfl⟩,
                                  (fun es1 hes1 => by simp at hes1),
                                  hall⟩
                        | special =>
                            cases dn with
                            | dir es1 => simp at h
                            | file c =>
                                simp only [Prod.mk.injEq] at h
                                obtain ⟨h1, -⟩ := h
                                have hall : ∀ s, s ≠ [] →
                                    fs.lookup (dst ++ s) = none := by
                                  intro s hs
                                  rw [lookup_append, hdl]
                                  cases s with
                                  | nil => exact absurd rfl hs
                                  | cons y s' => rfl
                                exact ⟨.special, rfl, h1.symm, hnpfx, hnotdesc hall,
                                  (fun h0 => by rw [h0] at hpf; simp [List.isPrefixOf] at hpf),
                                  hdne, ⟨es0, rfl⟩,
                                  (fun es1 hes1 => by simp at hes1),
                                  hall⟩
                            | special =>
                                simp only [Prod.mk.injEq] at h
                                obtain ⟨h1, -⟩ := h
                                have hall : ∀ s, s ≠ [] →
                                    fs.lookup (dst ++ s) = none := by
                                  intro s hs
                                  rw [lookup_append, hdl]
                                  cases s with
                                  | nil => exact absurd rfl hs
                                  | cons y s' => rfl
                                exact ⟨.special, rfl, h1.symm, hnpfx, hnotdesc hall,
                                  (fun h0 => by rw [h0] at hpf; simp [List.isPrefixOf] at hpf),
                                  hdne, ⟨es0, rfl⟩,
                                  (fun es1 hes1 => by simp at hes1),
                                  hall⟩

theorem rename_ok_lookup_dst {fs fs' : Node} {src dst : FPath} {sn : Node}
    (h : rename fs src dst = (fs', none)) (hne : src ≠ dst)
    (hsrc : fs.lookup src = some sn) (s : FPath) :
    fs'.lookup (dst ++ s) = sn.lookup s := by
  obtain ⟨sn', hsrc', hfs', hnp, -, -, hdne, ⟨es0, hpar⟩, -, -⟩ := rename_ok h hne
  rw [hsrc] at hsrc'
  cases hsrc'
  subst hfs'
  have hnp' : ¬ src <+: dst.dropLast := fun hh => hnp (hh.trans (List.dropLast_prefix dst))
  obtain ⟨es2, hpar2⟩ := lookup_removeAt_dir hnp' hpar
  exact lookup_setAt_append hdne hpar2 s

theorem rename_ok_lookup_src {fs fs' : Node} {src dst : FPath}
    (h : rename fs src dst = (fs', none)) (hne : src ≠ dst) (hwf : fs.wf = true) :
    fs'.lookup src = none := by
  obtain ⟨sn, hsrc, hfs', hnp, hnd, hsne, -, -, -, -⟩ := rename_ok h hne
  subst hfs'
  rw [lookup_setAt_indep hnd hnp]
  exact lookup_removeAt_self hwf hsne

theorem rename_ok_frame {fs fs' : Node} {src dst : FPath} {q : FPath}
    (h : rename fs src dst = (fs', none)) (hne : src ≠ dst)
    (h1 : ¬ src <+: q) (h2 : ¬ q <+: src) (h3 : ¬ dst <+: q) (h4 : ¬ q <+: dst) :
    fs'.lookup q = fs.lookup q := by
  obtain ⟨sn, hsrc, hfs', -, -, -, -, -, -, -⟩ := rename_ok h hne
  subst hfs'
  rw [lookup_setAt_indep h3 h4]
  exact lookup_removeAt_indep h1 h2

theorem rename_ok_dir_preserved {fs fs' : Node} {src dst : FPath} {q : FPath}
    {es1 : List (String × Node)}
    (h : rename fs src dst = (fs', none)) (hne : src ≠ dst)
    (h1 : ¬ src <+: q) (hd : fs.lookup q = some (.dir es1)) :
    ∃ es2, fs'.lookup q = some (.dir es2) := by
  obtain ⟨sn, hsrc, hfs', hnp, hnd, hsne, hdne, ⟨es0, hpar⟩, hdir, hall⟩ := rename_ok h hne
  by_cases hq : q = dst
  · subst hq
    obtain ⟨-, esn, rfl⟩ := hdir es1 hd
    have := rename_ok_lookup_dst h hne hsrc []
    rw [List.append_nil] at this
    exact ⟨esn, by simpa using this⟩
  · by_cases hq2 : dst <+: q
    · obtain ⟨s, rfl⟩ := hq2
      have hs : s ≠ [] := by
        intro h0; rw [h0, List.append_nil] at hq; exact hq rfl
      rw [hall s hs] at hd
      cases hd
    · by_cases hq3 : q <+: dst
      · subst hfs'
        obtain ⟨es2, hq4⟩ := lookup_removeAt_dir h1 hd
        exact lookup_setAt_pfx_dir hq3 hq hq4
      · subst hfs'
        obtain ⟨es2, hq4⟩ := lookup_removeAt_dir h1 hd
        rw [lookup_setAt_indep hq2 hq3]
        exact ⟨es2, hq4⟩

theorem rename_ok_wf {fs fs' : Node} {src dst : FPath}
    (h : rename fs src dst = (fs', none)) (hne : src ≠ dst) (hwf : fs.wf = true) :
    fs'.wf = true := by
  obtain ⟨sn, hsrc, hfs', -, -, -, -, -, -, -⟩ := rename_ok h hne
  subst hfs'
  exact setAt_wf (removeAt_wf hwf) (wf_lookup hwf hsrc)

theorem rename_err_id {fs fs1 : Node} {src dst : FPath} {e : Err}
    (h : rename fs src dst = (fs1, some e)) : fs1 = fs := by
  unfold rename at h
  cases hsrc : fs.lookup src with
  | none => simp only [hsrc] at h; exact (Prod.mk.injEq .. ▸ h).1.symm
  | some sn =>
      simp only [hsrc] at h
      by_cases hne : src = dst
      · rw [if_pos hne] at h; simp at h
      · rw [if_neg hne] at h
        by_cases hpf : src.isPrefixOf dst = true
        · rw [if_pos hpf] at h
          exact (Prod.mk.injEq .. ▸ h).1.symm
        · rw [if_neg hpf] at h
          by_cases hemp : dst.isEmpty = true
          · rw [if_pos hemp] at h
            exact (Prod.mk.injEq .. ▸ h).1.symm
          · rw [if_neg hemp] at h
            cases hpar : fs.lookup dst.dropLast with
            | none => simp only [hpar] at h; exact (Prod.mk.injEq .. ▸ h).1.symm
            | some pn =>
                simp only [hpar] at h
                cases pn with
                | file c => exact (Prod.mk.injEq .. ▸ h).1.symm
                | special => exact (Prod.mk.injEq .. ▸ h).1.symm
                | dir es0 =>
                    cases hdl : fs.lookup dst with
                    | none => simp only [hdl] at h; simp at h
                    | some dn =>
                        simp only [hdl] at h
                        cases sn with
                        | dir esn =>
                            cases dn with
                            | file c => exact (Prod.mk.injEq .. ▸ h).1.symm
                            | special => exact (Prod.mk.injEq .. ▸ h).1.symm
                            | dir es1 =>
                                cases es1 with
                                | nil => simp at h
                                | cons a b =>
                                    simp only [List.isEmpty_cons] at h
                                    simp at h
                                    exact h.1.symm
                        | file cs =>
                            cases dn with
                            | dir es1 => exact (Prod.mk.injEq .. ▸ h).1.symm
                            | file c => simp at h
                            | special => simp at h
                        | special =>
                            cases dn with
                            | dir es1 => exact (Prod.mk.injEq .. ▸ h).1.symm
                            | file c => simp at h
                            | special => simp at h

/-! ### mergeMove branch equations -/

theorem mergeMove_zero (fs : Node) (p dst : FPath) :
    mergeMove 0 fs p dst = (fs, some .outOfFuel) := rfl

theorem mergeMove_src_missing {fs : Node} {p : FPath} (dst : FPath) (fuel : Nat)
    (hp : fs.lookup p = none) :
    mergeMove (fuel + 1) fs p dst = (fs, some (.msg "source file does not exist")) := by
  simp [mergeMove, existsAt, hp]

theorem mergeMove_dst_missing {fs : Node} {p dst : FPath} {sn : Node} (fuel : Nat)
    (hp : fs.lookup p = some sn) (hd : fs.lookup dst = none) :
    mergeMove (fuel + 1) fs p dst =
      (match mkdirIfNotExist fs dst.dropLast with
       | (fs1, some e) => (fs1, some (.wrap "create parent directory" e))
       | (fs1, none) =>
           match rename fs1 p dst with
           | (fs2, some e) => (fs2, some (.wrap "rename file" e))
           | (fs2, none) => (fs2, none)) := by
  simp [mergeMove, existsAt, hp, hd]

theorem mergeMove_file_dir {fs : Node} {p dst : FPath} {c : String}
    {ds : List (String × Node)} (fuel : Nat)
    (hp : fs.lookup p = some (.file c)) (hd : fs.lookup dst = some (.dir ds)) :
    mergeMove (fuel + 1) fs p dst =
      (match rename fs p (dst ++ [baseName p]) with
       | (fs1, some e) => (fs1, some (.wrap "rename file" e))
       | (fs1, none) => (fs1, none)) := by
  simp [mergeMove, existsAt, isRegular, isDir, hp, hd]

theorem mergeMove_file_file {fs : Node} {p dst : FPath} {c c' : String} (fuel : Nat)
    (hp : fs.lookup p = some (.file c)) (hd : fs.lookup dst = some (.file c')) :
    mergeMove (fuel + 1) fs p dst =
      (match rename (fs.removeAt dst) p dst with
       | (fs2, some e) => (fs2, some (.wrap "rename file" e))
       | (fs2, none) => (fs2, none)) := by
  simp [mergeMove, existsAt, isRegular, isDir, hp, hd]

theorem mergeMove_file_special {fs : Node} {p dst : FPath} {c : String} (fuel : Nat)
    (hp : fs.lookup p = some (.file c)) (hd : fs.lookup dst = some .special) :
    mergeMove (fuel + 1) fs p dst =
      (fs, some (.msg "destination is not a regular file")) := by
  simp [mergeMove, existsAt, isRegular, isDir, hp, hd]

theorem mergeMove_special_src {fs : Node} {p dst : FPath} {dn : Node} (fuel : Nat)
    (hp : fs.lookup p = some .special) (hd : fs.lookup dst = some dn) :
    mergeMove (fuel + 1) fs p dst =
      (fs, some (.msg "source must be a regular file or directory")) := by
  simp [mergeMove, existsAt, isRegular, isDir, hp, hd]

theorem mergeMove_dir_nondir {fs : Node} {p dst : FPath} {es : List (String × Node)}
    {dn : Node} (fuel : Nat)
    (hp : fs.lookup p = some (.dir es)) (hd : fs.lookup dst = some dn)
    (hdn : ∀ ds, dn ≠ .dir ds) :
    mergeMove (fuel + 1) fs p dst =
      (fs, some (.msg "destination is not a directory")) := by
  cases dn with
  | dir ds => exact absurd rfl (hdn ds)
  | file c => simp [mergeMove, existsAt, isRegular, isDir, hp, hd]
  | special => simp [mergeMove, existsAt, isRegular, isDir, hp, hd]

theorem mergeMove_dir_dir {fs : Node} {p dst : FPath} {es ds : List (String × Node)}
    (fuel : Nat)
    (hp : fs.lookup p = some (.dir es)) (hd : fs.lookup dst = some (.dir ds)) :
    mergeMove (fuel + 1) fs p dst =
      (match runEntries (fun s a b => mergeMove fuel s a b) fs (es.map Prod.fst) p dst with
       | (fs1, some e) => (fs1, some e)
       | (fs1, none) => (fs1.removeAt p, none)) := by
  simp [mergeMove, existsAt, isRegular, isDir, readDir, hp, hd]

/-! ### runEntries basic lemmas -/

theorem runEntries_nil (f : Node → FPath → FPath → Node × Option Err)
    (fs : Node) (p dst : FPath) : runEntries f fs [] p dst = (fs, none) := rfl

theorem runEntries_cons (f : Node → FPath → FPath → Node × Option Err)
    (fs : Node) (name : String) (rest : List String) (p dst : FPath) :
    runEntries f fs (name :: rest) p dst =
      (match f fs (p ++ [name]) (dst ++ [name]) with
       | (fs1, some e) => (fs1, some (.wrapName "move file" name e))
       | (fs1, none) => runEntries f fs1 rest p dst) := rfl

theorem runEntries_append (f : Node → FPath → FPath → Node × Option Err)
    (fs : Node) (l1 l2 : List String) (p dst : FPath) :
    runEntries f fs (l1 ++ l2) p dst =
      (match runEntries f fs l1 p dst with
       | (fs1, none) => runEntries f fs1 l2 p dst
       | (fs1, some e) => (fs1, some e)) := by
  induction l1 generalizing fs with
  | nil => simp [runEntries_nil]
  | cons name rest ih =>
      rw [List.cons_append, runEntries_cons, runEntries_cons]
      cases hc : f fs (p ++ [name]) (dst ++ [name]) with
      | mk fs1 e =>
          cases e with
          | some e0 => simp
          | none => simp [ih fs1]

/-! ### Soundness contract for the recursive merge -/

theorem lookup_single_dir (es : List (String × Node)) (e : String) :
    (Node.dir es).lookup [e] = findEntry es e := by
  cases hf : findEntry es e <;> simp [hf]

theorem mem_keys_of_findEntry {es : List (String × Node)} {k : String} {c : Node}
    (h : findEntry es k = some c) : k ∈ es.map Prod.fst := by
  by_contra hk
  rw [← findEntry_eq_none_iff] at hk
  rw [hk] at h
  cases h

theorem findEntry_isSome_of_mem {es : List (String × Node)} {k : String}
    (h : k ∈ es.map Prod.fst) : (findEntry es k).isSome = true := by
  cases hf : findEntry es k with
  | some c => rfl
  | none => exact absurd (findEntry_eq_none_iff.mp hf) (by simp [h])

theorem getLast?_eq_baseName {p : FPath} (h : p ≠ []) :
    p.getLast? = some (baseName p) := by
  rcases List.eq_nil_or_concat p with rfl | ⟨q, a, rfl⟩
  · exact absurd rfl h
  · simp [baseName, List.getLastD_concat]

/-- Post-condition of one successful `mergeMove fs p dst` call whose
source node was `sn`: the source path is gone, well-formedness is
preserved, paths independent of both source and destination are
untouched, directories outside the source subtree stay directories, and
every regular file of the source subtree lands under the destination —
either at its own relative path, or (when a source file met an existing
destination directory) one level deeper under its own name. -/
def MergeRes (fs : Node) (p dst : FPath) (sn : Node) (fs' : Node) : Prop :=
  fs'.lookup p = none ∧ fs'.wf = true ∧
  (∀ q, indep q p = true → indep q dst = true → fs'.lookup q = fs.lookup q) ∧
  (∀ r es1, ¬ p <+: r → fs.lookup r = some (.dir es1) →
      ∃ es2, fs'.lookup r = some (.dir es2)) ∧
  (∀ q c, sn.lookup q = some (.file c) →
      fs'.lookup (dst ++ q) = some (.file c) ∨
      ∃ n, (p ++ q).getLast? = some n ∧
        fs'.lookup ((dst ++ q) ++ [n]) = some (.file c))

/-- The soundness contract of a merge-step function: on a well-formed
filesystem, with source and destination independent and the source
existing, a successful call satisfies `MergeRes`. -/
def MergeContract (f : Node → FPath → FPath → Node × Option Err) : Prop :=
  ∀ fs p dst sn fs', fs.wf = true → indep p dst = true →
    fs.lookup p = some sn → f fs p dst = (fs', none) → MergeRes fs p dst sn fs'

theorem runEntries_sound {f : Node → FPath → FPath → Node × Option Err}
    (hf : MergeContract f) :
    ∀ (names : List String) (fs : Node) (p dst : FPath) (es : List (String × Node))
      (fs' : Node),
      fs.wf = true → indep p dst = true → names.Nodup →
      (∀ e, e ∈ names → fs.lookup (p ++ [e]) = findEntry es e) →
      (∀ e, e ∈ names → (findEntry es e).isSome = true) →
      runEntries f fs names p dst = (fs', none) →
      fs'.wf = true ∧
      (∀ q, indep q p = true → (∀ e, e ∈ names → indep q (dst ++ [e]) = true) →
          fs'.lookup q = fs.lookup q) ∧
      (∀ r es1, ¬ p <+: r → fs.lookup r = some (.dir es1) →
          ∃ es2, fs'.lookup r = some (.dir es2)) ∧
      (∀ e, e ∈ names → ∀ c, findEntry es e = some c → ∀ q cnt,
          c.lookup q = some (.file cnt) →
          fs'.lookup (dst ++ e :: q) = some (.file cnt) ∨
          ∃ n, (p ++ e :: q).getLast? = some n ∧
            fs'.lookup ((dst ++ e :: q) ++ [n]) = some (.file cnt)) := by
  intro names
  induction names with
  | nil =>
      intro fs p dst es fs' hwf hind hnd hpe hps hrun
      rw [runEntries_nil] at hrun
      obtain ⟨rfl, -⟩ := Prod.mk.injEq .. ▸ hrun
      refine ⟨hwf, fun q _ _ => rfl, fun r es1 _ hd => ⟨es1, hd⟩, fun e he => ?_⟩
      simp at he
  | cons name rest ih =>
      intro fs p dst es fs' hwf hind hnd hpe hps hrun
      rcases hc : f fs (p ++ [name]) (dst ++ [name]) with ⟨fs1, e?⟩
      cases e? with
      | some e0 => simp only [runEntries_cons, hc] at hrun; simp at hrun
      | none =>
          simp only [runEntries_cons, hc] at hrun
          have hmem : name ∈ name :: rest := by simp
          have hlook : fs.lookup (p ++ [name]) = findEntry es name := hpe name hmem
          obtain ⟨c0, hc0⟩ := Option.isSome_iff_exists.mp (hps name hmem)
          rw [hc0] at hlook
          have hindext : indep (p ++ [name]) (dst ++ [name]) = true :=
            indep_append_both hind [name] [name]
          have hR : MergeRes fs (p ++ [name]) (dst ++ [name]) c0 fs1 :=
            hf fs (p ++ [name]) (dst ++ [name]) c0 fs1 hwf hindext hlook hc
          obtain ⟨hR1, hR2, hR3, hR4, hR5⟩ := hR
          have hnodup_rest : rest.Nodup := (List.nodup_cons.mp hnd).2
          have hname_notin : name ∉ rest := (List.nodup_cons.mp hnd).1
          have hpe' : ∀ e, e ∈ rest → fs1.lookup (p ++ [e]) = findEntry es e := by
            intro e he
            have hne : e ≠ name := fun h => hname_notin (h ▸ he)
            have h1 : indep (p ++ [e]) (p ++ [name]) = true := indep_snoc_ne hne
            have h2 : indep (p ++ [e]) (dst ++ [name]) = true :=
              indep_append_both hind [e] [name]
            rw [hR3 (p ++ [e]) h1 h2]
            exact hpe e (by simp [he])
          have hps' : ∀ e, e ∈ rest → (findEntry es e).isSome = true := by
            intro e he; exact hps e (by simp [he])
          obtain ⟨A, B, C, D⟩ := ih fs1 p dst es fs' hR2 hind hnodup_rest hpe' hps' hrun
          refine ⟨A, ?_, ?_, ?_⟩
          · intro q hqp hqall
            rw [B q hqp (fun e he => hqall e (by simp [he]))]
            exact hR3 q (indep_append_right hqp [name]) (hqall name hmem)
          · intro r es1 hpr hd
            have hpr' : ¬ (p ++ [name]) <+: r :=
              fun hh => hpr ((List.prefix_append p [name]).trans hh)
            obtain ⟨es2, hd1⟩ := hR4 r es1 hpr' hd
            exact C r es2 hpr hd1
          · intro e he c hc' q cnt hlq
            rcases List.mem_cons.mp he with rfl | hrest
            · rw [hc0] at hc'
              cases hc'
              have hpersist : ∀ tail, fs'.lookup ((dst ++ [e]) ++ tail)
                  = fs1.lookup ((dst ++ [e]) ++ tail) := by
                intro tail
                refine B ((dst ++ [e]) ++ tail) ?_ ?_
                · have := indep_append_right hind ([e] ++ tail)
                  rw [← List.append_assoc] at this
                  exact indep_symm this
                · intro e' he'
                  have hne' : e ≠ e' := fun h => hname_notin (h ▸ he')
                  have hbase : indep (dst ++ [e]) (dst ++ [e']) = true :=
                    indep_snoc_ne hne'
                  have := indep_append_both hbase tail []
                  rwa [List.append_nil] at this
              rcases hR5 q cnt hlq with hL | ⟨n, hn, hL⟩
              · left
                rw [List.append_cons dst e q, hpersist q]
                exact hL
              · right
                refine ⟨n, ?_, ?_⟩
                · rw [List.append_cons p e q]
                  exact hn
                · rw [List.append_cons dst e q, List.append_assoc (dst ++ [e]) q [n],
                    hpersist (q ++ [n])]
                  rw [List.append_assoc] at hL
                  exact hL
            · exact D e hrest c hc' q cnt hlq

theorem mergeMove_sound : ∀ fuel : Nat,
    MergeContract (fun s a b => mergeMove fuel s a b) := by
  intro fuel
  induction fuel with
  | zero =>
      intro fs p dst sn fs' hwf hind hp hrun
      replace hrun : mergeMove 0 fs p dst = (fs', none) := hrun
      rw [mergeMove_zero] at hrun
      simp at hrun
  | succ fuel ih =>
      intro fs p dst sn fs' hwf hind hp hrun
      replace hrun : mergeMove (fuel + 1) fs p dst = (fs', none) := hrun
      obtain ⟨hnp, hnd⟩ := indep_iff.mp hind
      have hne : p ≠ dst := indep_ne hind
      have pne : p ≠ [] := indep_ne_nil_left hind
      have dne : dst ≠ [] := indep_ne_nil_right hind
      cases hdl : fs.lookup dst with
      | none =>
          rw [mergeMove_dst_missing fuel hp hdl] at hrun
          rcases hm : mkdirIfNotExist fs dst.dropLast with ⟨fs1, em⟩
          cases em with
          | some e => simp only [hm] at hrun; simp at hrun
          | none =>
              simp only [hm] at hrun
              rcases hr : rename fs1 p dst with ⟨fs2, er⟩
              cases er with
              | some e => simp only [hr] at hrun; simp at hrun
              | none =>
                  simp only [hr] at hrun
                  obtain ⟨rfl, -⟩ := Prod.mk.injEq .. ▸ hrun
                  have hq_ddl : ¬ p <+: dst.dropLast :=
                    fun hh => hnp (hh.trans (List.dropLast_prefix dst))
                  have hfs1p : fs1.lookup p = some sn := by
                    rw [mie_frame hm hq_ddl]; exact hp
                  have hwf1 : fs1.wf = true := mie_wf hm hwf
                  refine ⟨rename_ok_lookup_src hr hne hwf1,
                    rename_ok_wf hr hne hwf1, ?_, ?_, ?_⟩
                  · intro q hqp hqd
                    obtain ⟨hq1, hq2⟩ := indep_iff.mp hqp
                    obtain ⟨hq3, hq4⟩ := indep_iff.mp hqd
                    rw [rename_ok_frame hr hne hq2 hq1 hq4 hq3]
                    exact mie_frame hm (fun hh => hq3 (hh.trans (List.dropLast_prefix dst)))
                  · intro r es1 hpr hd
                    obtain ⟨es2, hd1⟩ := mie_dir_preserved hm hd
                    exact rename_ok_dir_preserved hr hne hpr hd1
                  · intro q c hq
                    left
                    rw [rename_ok_lookup_dst hr hne hfs1p q, hq]
      | some dn =>
          cases sn with
          | special =>
              rw [mergeMove_special_src fuel hp hdl] at hrun
              simp at hrun
          | file c =>
              cases dn with
              | special =>
                  rw [mergeMove_file_special fuel hp hdl] at hrun
                  simp at hrun
              | dir ds =>
                  rw [mergeMove_file_dir fuel hp hdl] at hrun
                  rcases hr : rename fs p (dst ++ [baseName p]) with ⟨fs1, er⟩
                  cases er with
                  | some e => simp only [hr] at hrun; simp at hrun
                  | none =>
                      simp only [hr] at hrun
                      obtain ⟨rfl, -⟩ := Prod.mk.injEq .. ▸ hrun
                      have htne : p ≠ dst ++ [baseName p] :=
                        fun h => hnd (h ▸ List.prefix_append dst [baseName p])
                      refine ⟨rename_ok_lookup_src hr htne hwf,
                        rename_ok_wf hr htne hwf, ?_, ?_, ?_⟩
                      · intro q hqp hqd
                        obtain ⟨hq1, hq2⟩ := indep_iff.mp hqp
                        obtain ⟨hq3, hq4⟩ := indep_iff.mp hqd
                        refine rename_ok_frame hr htne hq2 hq1 ?_ ?_
                        · intro hh
                          exact hq4 ((List.prefix_append dst [baseName p]).trans hh)
                        · intro hh
                          rcases prefix_snoc_cases hh with h0 | h0
                          · exact hq3 h0
                          · exact hq4 (by rw [h0]; exact List.prefix_append dst [baseName p])
                      · intro r es1 hpr hd
                        exact rename_ok_dir_preserved hr htne hpr hd
                      · intro q cc hq
                        cases q with
                        | cons y q' => simp [Node.lookup] at hq
                        | nil =>
                            simp only [lookup_nil, Option.some_inj] at hq
                            right
                            refine ⟨baseName p, ?_, ?_⟩
                            · rw [List.append_nil]
                              exact getLast?_eq_baseName pne
                            · rw [List.append_nil]
                              cases hq
                              have h5 := rename_ok_lookup_dst hr htne hp []
                              rw [List.append_nil] at h5
                              rw [h5]
                              simp
              | file c' =>
                  rw [mergeMove_file_file fuel hp hdl] at hrun
                  rcases hr : rename (fs.removeAt dst) p dst with ⟨fs2, er⟩
                  cases er with
                  | some e => simp only [hr] at hrun; simp at hrun
                  | none =>
                      simp only [hr] at hrun
                      obtain ⟨rfl, -⟩ := Prod.mk.injEq .. ▸ hrun
                      have hwfr : (fs.removeAt dst).wf = true := removeAt_wf hwf
                      have hpr0 : (fs.removeAt dst).lookup p = some (Node.file c) := by
                        rw [lookup_removeAt_indep hnd hnp]; exact hp
                      refine ⟨rename_ok_lookup_src hr hne hwfr,
                        rename_ok_wf hr hne hwfr, ?_, ?_, ?_⟩
                      · intro q hqp hqd
                        obtain ⟨hq1, hq2⟩ := indep_iff.mp hqp
                        obtain ⟨hq3, hq4⟩ := indep_iff.mp hqd
                        rw [rename_ok_frame hr hne hq2 hq1 hq4 hq3]
                        exact lookup_removeAt_indep hq4 hq3
                      · intro r es1 hpr hd
                        have hndr : ¬ dst <+: r := by
                          intro hh
                          obtain ⟨s, rfl⟩ := hh
                          cases s with
                          | nil =>
                              rw [List.append_nil] at hd
                              rw [hdl] at hd
                              cases hd
                          | cons y s' =>
                              rw [lookup_append, hdl] at hd
                              simp [Node.lookup] at hd
                        obtain ⟨es2, hd1⟩ := lookup_removeAt_dir hndr hd
                        exact rename_ok_dir_preserved hr hne hpr hd1
                      · intro q cc hq
                        cases q with
                        | cons y q' => simp [Node.lookup] at hq
                        | nil =>
                            simp only [lookup_nil, Option.some_inj] at hq
                            cases hq
                            left
                            rw [List.append_nil]
                            have h5 := rename_ok_lookup_dst hr hne hpr0 []
                            rw [List.append_nil] at h5
                            rw [h5]
                            simp
          | dir es =>
              cases dn with
              | file c =>
                  rw [mergeMove_dir_nondir fuel hp hdl
                    (fun ds h => Node.noConfusion h)] at hrun
                  simp at hrun
              | special =>
                  rw [mergeMove_dir_nondir fuel hp hdl
                    (fun ds h => Node.noConfusion h)] at hrun
                  simp at hrun
              | dir ds =>
                  rw [mergeMove_dir_dir fuel hp hdl] at hrun
                  rcases hloop : runEntries (fun s a b => mergeMove fuel s a b) fs
                      (es.map Prod.fst) p dst with ⟨fs1, el⟩
                  cases el with
                  | some e => simp only [hloop] at hrun; simp at hrun
                  | none =>
                      simp only [hloop] at hrun
                      obtain ⟨rfl, -⟩ := Prod.mk.injEq .. ▸ hrun
                      have hwfp : (Node.dir es).wf = true := wf_lookup hwf hp
                      have hnodup : (es.map Prod.fst).Nodup :=
                        nodupKeys_iff_nodup.mp (wf_dir_iff.mp hwfp).1
                      have hpe : ∀ e, e ∈ es.map Prod.fst →
                          fs.lookup (p ++ [e]) = findEntry es e := by
                        intro e he
                        rw [lookup_append, hp]
                        exact lookup_single_dir es e
                      have hps : ∀ e, e ∈ es.map Prod.fst →
                          (findEntry es e).isSome = true :=
                        fun e he => findEntry_isSome_of_mem he
                      obtain ⟨A, B, C, D⟩ := runEntries_sound ih (es.map Prod.fst)
                        fs p dst es fs1 hwf hind hnodup hpe hps hloop
                      refine ⟨lookup_removeAt_self A pne, removeAt_wf A, ?_, ?_, ?_⟩
                      · intro q hqp hqd
                        obtain ⟨hq1, hq2⟩ := indep_iff.mp hqp
                        rw [lookup_removeAt_indep hq2 hq1]
                        exact B q hqp (fun e he => indep_append_right hqd [e])
                      · intro r es1 hpr hd
                        obtain ⟨es2, hd1⟩ := C r es1 hpr hd
                        exact lookup_removeAt_dir hpr hd1
                      · intro q c hq
                        cases q with
                        | nil => simp at hq
                        | cons e q' =>
                            simp only [lookup_cons_dir] at hq
                            cases hfe : findEntry es e with
                            | none => rw [hfe] at hq; simp at hq
                            | some c0 =>
                                rw [hfe] at hq
                                have hmem : e ∈ es.map Prod.fst :=
                                  mem_keys_of_findEntry hfe
                                rcases D e hmem c0 hfe q' c hq with hL | ⟨n, hn, hL⟩
                                · left
                                  have hip : indep p (dst ++ e :: q') = true :=
                                    indep_append_right hind (e :: q')
                                  obtain ⟨hi1, hi2⟩ := indep_iff.mp hip
                                  rw [lookup_removeAt_indep hi1 hi2]
                                  exact hL
                                · right
                                  refine ⟨n, hn, ?_⟩
                                  have hip : indep p (dst ++ (e :: q' ++ [n])) = true :=
                                    indep_append_right hind (e :: q' ++ [n])
                                  rw [← List.append_assoc] at hip
                                  obtain ⟨hi1, hi2⟩ := indep_iff.mp hip
                                  rw [lookup_removeAt_indep hi1 hi2]
                                  exact hL

/-! ### Termination: fuel exhaustion never occurs with enough fuel -/

/-- Whether an error contains the fuel-exhaustion marker of the
embedding (possibly under wrapping).  Errors of the Go code itself never
do. -/
def Err.hasFuelErr : Err → Bool
  | .outOfFuel => true
  | .wrap _ e => e.hasFuelErr
  | .wrapName _ _ e => e.hasFuelErr
  | .msg _ => false
  | .prim _ => false

theorem depth_pos (n : Node) : 1 ≤ n.depth := by
  cases n <;> simp [Node.depth]

theorem findEntry_depth_le {es : List (String × Node)} {k : String} {c : Node}
    (h : findEntry es k = some c) : c.depth ≤ entriesDepth es := by
  induction es with
  | nil => simp [findEntry] at h
  | cons e rest ih =>
      obtain ⟨a, b⟩ := e
      by_cases hk : a = k
      · simp [findEntry, hk] at h
        subst h
        simp [entriesDepth]
      · simp [findEntry, hk] at h
        exact le_trans (ih h) (by simp [entriesDepth])

theorem mkdirAll_no_fuel_err {fs fs1 : Node} {r : FPath} {e : Err}
    (h : fs.mkdirAll r = (fs1, some e)) : e.hasFuelErr = false := by
  induction r generalizing fs fs1 e with
  | nil =>
      cases fs with
      | file c => simp [Node.mkdirAll] at h; simp [← h.2, Err.hasFuelErr]
      | special => simp [Node.mkdirAll] at h; simp [← h.2, Err.hasFuelErr]
      | dir es => simp [Node.mkdirAll] at h
  | cons x rest ih =>
      cases fs with
      | file c => simp [Node.mkdirAll] at h; simp [← h.2, Err.hasFuelErr]
      | special => simp [Node.mkdirAll] at h; simp [← h.2, Err.hasFuelErr]
      | dir es =>
          cases hf : findEntry es x with
          | none => simp [Node.mkdirAll, hf] at h
          | some c =>
              rcases hm : c.mkdirAll rest with ⟨c', e'⟩
              cases e' with
              | none => simp [Node.mkdirAll, hf, hm] at h
              | some e2 =>
                  simp [Node.mkdirAll, hf, hm] at h
                  exact h.2 ▸ ih hm

theorem mie_no_fuel_err {fs fs1 : Node} {r : FPath} {e : Err}
    (h : mkdirIfNotExist fs r = (fs1, some e)) : e.hasFuelErr = false := by
  unfold mkdirIfNotExist at h
  cases hl : fs.lookup r with
  | none => rw [hl] at h; exact mkdirAll_no_fuel_err h
  | some n =>
      rw [hl] at h
      cases n with
      | file c => simp at h; simp [← h.2, Err.hasFuelErr]
      | special => simp at h; simp [← h.2, Err.hasFuelErr]
      | dir es => simp at h

theorem rename_no_fuel_err {fs fs1 : Node} {src dst : FPath} {e : Err}
    (h : rename fs src dst = (fs1, some e)) : e.hasFuelErr = false := by
  unfold rename at h
  cases hsrc : fs.lookup src with
  | none =>
      simp only [hsrc] at h
      obtain ⟨-, h2⟩ := Prod.mk.injEq .. ▸ h
      simp [← Option.some_inj.mp h2, Err.hasFuelErr]
  | some sn =>
      simp only [hsrc] at h
      by_cases hne : src = dst
      · rw [if_pos hne] at h; simp at h
      · rw [if_neg hne] at h
        by_cases hpf : src.isPrefixOf dst = true
        · rw [if_pos hpf] at h
          obtain ⟨-, h2⟩ := Prod.mk.injEq .. ▸ h
          simp [← Option.some_inj.mp h2, Err.hasFuelErr]
        · rw [if_neg hpf] at h
          by_cases hemp : dst.isEmpty = true
          · rw [if_pos hemp] at h
            obtain ⟨-, h2⟩ := Prod.mk.injEq .. ▸ h
            simp [← Option.some_inj.mp h2, Err.hasFuelErr]
          · rw [if_neg hemp] at h
            cases hpar : fs.lookup dst.dropLast with
            | none =>
                simp only [hpar] at h
                obtain ⟨-, h2⟩ := Prod.mk.injEq .. ▸ h
                simp [← Option.some_inj.mp h2, Err.hasFuelErr]
            | some pn =>
                simp only [hpar] at h
                cases pn with
                | file c =>
                    obtain ⟨-, h2⟩ := Prod.mk.injEq .. ▸ h
                    simp [← Option.some_inj.mp h2, Err.hasFuelErr]
                | special =>
                    obtain ⟨-, h2⟩ := Prod.mk.injEq .. ▸ h
                    simp [← Option.some_inj.mp h2, Err.hasFuelErr]
                | dir es0 =>
                    cases hdl : fs.lookup dst with
                    | none => simp only [hdl] at h; simp at h
                    | some dn =>
                        simp only [hdl] at h
                        cases sn with
                        | dir esn =>
                            cases dn with
                            | file c =>
                                obtain ⟨-, h2⟩ := Prod.mk.injEq .. ▸ h
                                simp [← Option.some_inj.mp h2, Err.hasFuelErr]
                            | special =>
                                obtain ⟨-, h2⟩ := Prod.mk.injEq .. ▸ h
                                simp [← Option.some_inj.mp h2, Err.hasFuelErr]
                            | dir es1 =>
                                cases es1 with
                                | nil => simp at h
                                | cons a b =>
                                    simp only [List.isEmpty_cons] at h
                                    simp at h
                                    simp [← h.2, Err.hasFuelErr]
                        | file cs =>
                            cases dn with
                            | dir es1 =>
                                obtain ⟨-, h2⟩ := Prod.mk.injEq .. ▸ h
                                simp [← Option.some_inj.mp h2, Err.hasFuelErr]
                            | file c => simp at h
                            | special => simp at h
                        | special =>
                            cases dn with
                            | dir es1 =>
                                obtain ⟨-, h2⟩ := Prod.mk.injEq .. ▸ h
                                simp [← Option.some_inj.mp h2, Err.hasFuelErr]
                            | file c => simp at h
                            | special => simp at h

theorem mergeMove_no_fuel_err : ∀ (fuel : Nat) (fs : Node) (p dst : FPath) (sn : Node)
    (e : Err), fs.wf = true → indep p dst = true → fs.lookup p = some sn →
    sn.depth ≤ fuel → (mergeMove fuel fs p dst).2 = some e →
    Err.hasFuelErr e = false := by
  intro fuel
  induction fuel with
  | zero =>
      intro fs p dst sn e hwf hind hp hdep hrun
      exact absurd (le_trans (depth_pos sn) hdep) (by simp)
  | succ fuel ih =>
      intro fs p dst sn e hwf hind hp hdep hrun
      obtain ⟨hnp, hnd⟩ := indep_iff.mp hind
      have hne : p ≠ dst := indep_ne hind
      have pne : p ≠ [] := indep_ne_nil_left hind
      cases hdl : fs.lookup dst with
      | none =>
          rw [mergeMove_dst_missing fuel hp hdl] at hrun
          rcases hm : mkdirIfNotExist fs dst.dropLast with ⟨fs1, em⟩
          cases em with
          | some e0 =>
              simp only [hm] at hrun
              simp at hrun
              rw [← hrun]
              simpa [Err.hasFuelErr] using mie_no_fuel_err hm
          | none =>
              simp only [hm] at hrun
              rcases hr : rename fs1 p dst with ⟨fs2, er⟩
              cases er with
              | some e0 =>
                  simp only [hr] at hrun
                  simp at hrun
                  rw [← hrun]
                  simpa [Err.hasFuelErr] using rename_no_fuel_err hr
              | none => simp only [hr] at hrun; simp at hrun
      | some dn =>
          cases sn with
          | special =>
              rw [mergeMove_special_src fuel hp hdl] at hrun
              simp at hrun
              rw [← hrun]
              simp [Err.hasFuelErr]
          | file c =>
              cases dn with
              | special =>
                  rw [mergeMove_file_special fuel hp hdl] at hrun
                  simp at hrun
                  rw [← hrun]
                  simp [Err.hasFuelErr]
              | dir ds =>
                  rw [mergeMove_file_dir fuel hp hdl] at hrun
                  rcases hr : rename fs p (dst ++ [baseName p]) with ⟨fs1, er⟩
                  cases er with
                  | some e0 =>
                      simp only [hr] at hrun
                      simp at hrun
                      rw [← hrun]
                      simpa [Err.hasFuelErr] using rename_no_fuel_err hr
                  | none => simp only [hr] at hrun; simp at hrun
              | file c' =>
                  rw [mergeMove_file_file fuel hp hdl] at hrun
                  rcases hr : rename (fs.removeAt dst) p dst with ⟨fs2, er⟩
                  cases er with
                  | some e0 =>
                      simp only [hr] at hrun
                      simp at hrun
                      rw [← hrun]
                      simpa [Err.hasFuelErr] using rename_no_fuel_err hr
                  | none => simp only [hr] at hrun; simp at hrun
          | dir es =>
              cases dn with
              | file c =>
                  rw [mergeMove_dir_nondir fuel hp hdl
                    (fun ds h => Node.noConfusion h)] at hrun
                  simp at hrun
                  rw [← hrun]
                  simp [Err.hasFuelErr]
              | special =>
                  rw [mergeMove_dir_nondir fuel hp hdl
                    (fun ds h => Node.noConfusion h)] at hrun
                  simp at hrun
                  rw [← hrun]
                  simp [Err.hasFuelErr]
              | dir ds =>
                  rw [mergeMove_dir_dir fuel hp hdl] at hrun
                  have hwfp : (Node.dir es).wf = true := wf_lookup hwf hp
                  have hdepes : entriesDepth es ≤ fuel := by
                    have hd2 : Node.depth (.dir es) = 1 + entriesDepth es := by
                      simp [Node.depth]
                    rw [hd2] at hdep
                    omega
                  have loop : ∀ (names : List String) (fs0 : Node) (e0 : Err),
                      fs0.wf = true → names.Nodup →
                      (∀ e', e' ∈ names → fs0.lookup (p ++ [e']) = findEntry es e') →
                      (∀ e', e' ∈ names → (findEntry es e').isSome = true) →
                      (runEntries (fun s a b => mergeMove fuel s a b)
                        fs0 names p dst).2 = some e0 →
                      Err.hasFuelErr e0 = false := by
                    intro names
                    induction names with
                    | nil => intro fs0 e0 _ _ _ _ hrun0; simp [runEntries_nil] at hrun0
                    | cons name rest ihn =>
                        intro fs0 e0 hwf0 hnd0 hpe0 hps0 hrun0
                        have hmem : name ∈ name :: rest := by simp
                        obtain ⟨c0, hc0⟩ := Option.isSome_iff_exists.mp (hps0 name hmem)
                        have hlook : fs0.lookup (p ++ [name]) = some c0 := by
                          rw [hpe0 name hmem]; exact hc0
                        have hindext : indep (p ++ [name]) (dst ++ [name]) = true :=
                          indep_append_both hind [name] [name]
                        have hcdep : c0.depth ≤ fuel :=
                          le_trans (findEntry_depth_le hc0) hdepes
                        rcases hc : mergeMove fuel fs0 (p ++ [name]) (dst ++ [name])
                            with ⟨fs1, e?⟩
                        cases e? with
                        | some e1 =>
                            simp only [runEntries_cons, hc] at hrun0
                            simp at hrun0
                            rw [← hrun0]
                            simp only [Err.hasFuelErr]
                            exact ih fs0 (p ++ [name]) (dst ++ [name]) c0 e1
                              hwf0 hindext hlook hcdep (by rw [hc])
                        | none =>
                            simp only [runEntries_cons, hc] at hrun0
                            obtain ⟨hR1, hR2, hR3, hR4, hR5⟩ :=
                              mergeMove_sound fuel fs0 (p ++ [name]) (dst ++ [name])
                                c0 fs1 hwf0 hindext hlook hc
                            have hnodup_rest : rest.Nodup := (List.nodup_cons.mp hnd0).2
                            have hname_notin : name ∉ rest := (List.nodup_cons.mp hnd0).1
                            have hpe' : ∀ e', e' ∈ rest →
                                fs1.lookup (p ++ [e']) = findEntry es e' := by
                              intro e' he'
                              have hne' : e' ≠ name := fun h => hname_notin (h ▸ he')
                              rw [hR3 (p ++ [e']) (indep_snoc_ne hne')
                                (indep_append_both hind [e'] [name])]
                              exact hpe0 e' (by simp [he'])
                            exact ihn fs1 e0 hR2 hnodup_rest hpe'
                              (fun e' he' => hps0 e' (by simp [he'])) hrun0
                  rcases hloop : runEntries (fun s a b => mergeMove fuel s a b) fs
                      (es.map Prod.fst) p dst with ⟨fs1, el⟩
                  cases el with
                  | some e0 =>
                      simp only [hloop] at hrun
                      simp at hrun
                      rw [← hrun]
                      refine loop (es.map Prod.fst) fs e0 hwf
                        (nodupKeys_iff_nodup.mp (wf_dir_iff.mp hwfp).1) ?_ ?_
                        (by rw [hloop])
                      · intro e' he'
                        rw [lookup_append, hp]
                        exact lookup_single_dir es e'
                      · intro e' he'
                        exact findEntry_isSome_of_mem he'
                  | none => simp only [hloop] at hrun; simp at hrun

/-! ### Helpers for the per-claim theorems -/

theorem lookup_nonDir_ext {fs : Node} {p : FPath} {n : Node} {s : FPath}
    (hp : fs.lookup p = some n) (hnd : ∀ es, n ≠ .dir es) (hs : s ≠ []) :
    fs.lookup (p ++ s) = none := by
  rw [lookup_append, hp]
  cases s with
  | nil => exact absurd rfl hs
  | cons y s' => simp [lookup_cons_eq_none_of_nonDir hnd]

theorem lookup_parent_dir {fs : Node} {dst : FPath} {n : Node}
    (h : fs.lookup dst = some n) (hne : dst ≠ []) :
    ∃ es, fs.lookup dst.dropLast = some (.dir es) := by
  have hsplit : dst.dropLast ++ [dst.getLast hne] = dst := List.dropLast_append_getLast hne
  rw [← hsplit] at h
  obtain ⟨es, hes, -⟩ := lookup_pfx_dir h
  exact ⟨es, hes⟩

theorem not_prefix_dropLast {l : FPath} (h : l ≠ []) : ¬ l <+: l.dropLast := by
  intro hh
  have h1 := hh.length_le
  rw [List.length_dropLast] at h1
  cases l with
  | nil => exact h rfl
  | cons x l' => simp at h1

theorem rename_self {fs : Node} {src : FPath} {sn : Node}
    (h : fs.lookup src = some sn) : rename fs src src = (fs, none) := by
  unfold rename
  simp [h]

theorem rename_missing_ok {fs : Node} {src dst : FPath} {sn : Node}
    {es0 : List (String × Node)}
    (hsrc : fs.lookup src = some sn) (hdst : fs.lookup dst = none)
    (hne : src ≠ dst) (hnp : ¬ src <+: dst) (hdne : dst ≠ [])
    (hpar : fs.lookup dst.dropLast = some (.dir es0)) :
    rename fs src dst = ((fs.removeAt src).setAt dst sn, none) := by
  have hpfb : ¬ (src.isPrefixOf dst = true) :=
    fun hh => hnp (List.isPrefixOf_iff_prefix.mp hh)
  have hempb : ¬ (dst.isEmpty = true) := by
    simp only [List.isEmpty_iff]
    exact hdne
  unfold rename
  simp only [hsrc, if_neg hne, if_neg hpfb, if_neg hempb, hpar, hdst]

theorem rename_file_over_file_ok {fs : Node} {src dst : FPath} {c c' : String}
    {es0 : List (String × Node)}
    (hsrc : fs.lookup src = some (.file c)) (hdst : fs.lookup dst = some (.file c'))
    (hne : src ≠ dst) (hnp : ¬ src <+: dst) (hdne : dst ≠ [])
    (hpar : fs.lookup dst.dropLast = some (.dir es0)) :
    rename fs src dst = ((fs.removeAt src).setAt dst (.file c), none) := by
  have hpfb : ¬ (src.isPrefixOf dst = true) :=
    fun hh => hnp (List.isPrefixOf_iff_prefix.mp hh)
  have hempb : ¬ (dst.isEmpty = true) := by
    simp only [List.isEmpty_iff]
    exact hdne
  unfold rename
  simp only [hsrc, if_neg hne, if_neg hpfb, if_neg hempb, hpar, hdst]

theorem rename_file_over_special_ok {fs : Node} {src dst : FPath} {c : String}
    {es0 : List (String × Node)}
    (hsrc : fs.lookup src = some (.file c)) (hdst : fs.lookup dst = some .special)
    (hne : src ≠ dst) (hnp : ¬ src <+: dst) (hdne : dst ≠ [])
    (hpar : fs.lookup dst.dropLast = some (.dir es0)) :
    rename fs src dst = ((fs.removeAt src).setAt dst (.file c), none) := by
  have hpfb : ¬ (src.isPrefixOf dst = true) :=
    fun hh => hnp (List.isPrefixOf_iff_prefix.mp hh)
  have hempb : ¬ (dst.isEmpty = true) := by
    simp only [List.isEmpty_iff]
    exact hdne
  unfold rename
  simp only [hsrc, if_neg hne, if_neg hpfb, if_neg hempb, hpar, hdst]

/-! ### Claim theorems.

The spec's error kinds map to the code's error values as follows:
`NotFoundError` is `errz.E("source file does not exist")`, and
`InvalidTargetError` is `errz.E("destination is not a directory")` /
`errz.E("destination is not a regular file")` depending on the branch.
The fuel index only bounds the recursion depth of the embedding; any
positive fuel reaches every non-recursive branch. -/

/-- C3: for every non-existent source and every destination,
`MergeMove(source, destination)` fails with `NotFoundError` (the error
`errz.E("source file does not exist")`) and performs no filesystem
modification — the returned filesystem state is exactly the input one,
so the destination is untouched. -/
theorem c3_missing_source_fails_untouched (fuel : Nat) (fs : Node) (p dst : FPath)
    (hp : fs.lookup p = none) :
    mergeMove (fuel + 1) fs p dst = (fs, some (.msg "source file does not exist")) :=
  mergeMove_src_missing dst fuel hp

/-- Witness for C3 at a concrete input: source `b` does not exist. -/
theorem c3_missing_source_fails_untouched_witness :
    (Node.dir [("a", Node.file "x")]).lookup ["b"] = none ∧
    mergeMove 1 (Node.dir [("a", Node.file "x")]) ["b"] ["a"] =
      (Node.dir [("a", Node.file "x")], some (.msg "source file does not exist")) :=
  ⟨rfl, c3_missing_source_fails_untouched 0 (Node.dir [("a", Node.file "x")])
    ["b"] ["a"] rfl⟩

/-- C5: for every source that is a directory and every existing
destination that is not a directory, `MergeMove` fails with
`InvalidTargetError` (`errz.E("destination is not a directory")`) and
modifies neither source nor destination: the returned filesystem is
exactly the input one. -/
theorem c5_dir_into_nondir_fails_untouched (fuel : Nat) (fs : Node) (p dst : FPath)
    (es : List (String × Node)) (n : Node)
    (hp : fs.lookup p = some (.dir es)) (hd : fs.lookup dst = some n)
    (hn : ∀ ds, n ≠ .dir ds) :
    mergeMove (fuel + 1) fs p dst = (fs, some (.msg "destination is not a directory")) :=
  mergeMove_dir_nondir fuel hp hd hn

/-- Witness for C5 at a concrete input: directory `s` into regular file
`t`. -/
theorem c5_dir_into_nondir_fails_untouched_witness :
    (Node.dir [("s", Node.dir []), ("t", Node.file "y")]).lookup ["s"]
      = some (Node.dir []) ∧
    mergeMove 1 (Node.dir [("s", Node.dir []), ("t", Node.file "y")]) ["s"] ["t"] =
      (Node.dir [("s", Node.dir []), ("t", Node.file "y")],
        some (.msg "destination is not a directory")) :=
  ⟨rfl, c5_dir_into_nondir_fails_untouched 0 _ ["s"] ["t"] [] (Node.file "y")
    rfl rfl (fun ds h => Node.noConfusion h)⟩

/-- C7: for every source that is a regular file and every existing
destination that is neither a directory nor a regular file (a special
file), `MergeMove` fails with `InvalidTargetError`
(`errz.E("destination is not a regular file")`), leaving the filesystem
unchanged. -/
theorem c7_file_into_special_fails (fuel : Nat) (fs : Node) (p dst : FPath) (c : String)
    (hp : fs.lookup p = some (.file c)) (hd : fs.lookup dst = some .special) :
    mergeMove (fuel + 1) fs p dst =
      (fs, some (.msg "destination is not a regular file")) :=
  mergeMove_file_special fuel hp hd

/-- Witness for C7 at a concrete input: file `f` into special file
`dev`. -/
theorem c7_file_into_special_fails_witness :
    (Node.dir [("f", Node.file "x"), ("dev", Node.special)]).lookup ["dev"]
      = some Node.special ∧
    mergeMove 1 (Node.dir [("f", Node.file "x"), ("dev", Node.special)]) ["f"] ["dev"] =
      (Node.dir [("f", Node.file "x"), ("dev", Node.special)],
        some (.msg "destination is not a regular file")) :=
  ⟨rfl, c7_file_into_special_fails 0 _ ["f"] ["dev"] "x" rfl rfl⟩

/-- C9: for every source that exists but is neither a regular file nor a
directory (a special file), when the destination also exists,
`MergeMove` fails with `errz.E("source must be a regular file or
directory")` and performs no filesystem modification: the returned
filesystem is exactly the input one. -/
theorem c9_special_source_fails (fuel : Nat) (fs : Node) (p dst : FPath) (n : Node)
    (hp : fs.lookup p = some .special) (hd : fs.lookup dst = some n) :
    mergeMove (fuel + 1) fs p dst =
      (fs, some (.msg "source must be a regular file or directory")) :=
  mergeMove_special_src fuel hp hd

/-- Witness for C9 at a concrete input: special file `dev` onto file
`t`. -/
theorem c9_special_source_fails_witness :
    (Node.dir [("dev", Node.special), ("t", Node.file "y")]).lookup ["dev"]
      = some Node.special ∧
    mergeMove 1 (Node.dir [("dev", Node.special), ("t", Node.file "y")]) ["dev"] ["t"] =
      (Node.dir [("dev", Node.special), ("t", Node.file "y")],
        some (.msg "source must be a regular file or directory")) :=
  ⟨rfl, c9_special_source_fails 0 _ ["dev"] ["t"] (Node.file "y") rfl rfl⟩

/-- C2: for every existing source, when the destination does not exist
`MergeMove` creates any missing parent directories of the destination
and then renames source to destination in one primitive step (first
conjunct: the call is exactly `MkdirIfNotExist` on the destination's
parent followed by one `os.Rename`); after a successful call the source
no longer exists, the destination holds exactly the source's original
node (identical content for a file, identical entry set for a
directory), and every proper ancestor of the destination exists as a
directory (second conjunct).  `fs.wf` is the real-filesystem invariant
that directory entry names are distinct. -/
theorem c2_move_to_missing_destination (fuel : Nat) (fs : Node) (p dst : FPath)
    (sn : Node) (hwf : fs.wf = true)
    (hp : fs.lookup p = some sn) (hd : fs.lookup dst = none) :
    mergeMove (fuel + 1) fs p dst =
      (match mkdirIfNotExist fs dst.dropLast with
       | (fs1, some e) => (fs1, some (.wrap "create parent directory" e))
       | (fs1, none) =>
           match rename fs1 p dst with
           | (fs2, some e) => (fs2, some (.wrap "rename file" e))
           | (fs2, none) => (fs2, none)) ∧
    (∀ fs', mergeMove (fuel + 1) fs p dst = (fs', none) →
      fs'.lookup dst = some sn ∧ fs'.lookup p = none ∧
      ∀ q s, q ++ s = dst → s ≠ [] → ∃ es, fs'.lookup q = some (.dir es)) := by
  refine ⟨mergeMove_dst_missing fuel hp hd, ?_⟩
  intro fs' hrun
  rw [mergeMove_dst_missing fuel hp hd] at hrun
  rcases hm : mkdirIfNotExist fs dst.dropLast with ⟨fs1, em⟩
  cases em with
  | some e => simp only [hm] at hrun; simp at hrun
  | none =>
      simp only [hm] at hrun
      rcases hr : rename fs1 p dst with ⟨fs2, er⟩
      cases er with
      | some e => simp only [hr] at hrun; simp at hrun
      | none =>
          simp only [hr] at hrun
          obtain ⟨rfl, -⟩ := Prod.mk.injEq .. ▸ hrun
          have hne : p ≠ dst := fun h => by rw [h, hd] at hp; cases hp
          obtain ⟨sn', hsrc', -, hnp, -, -, -, -, -, -⟩ := rename_ok hr hne
          have hq_ddl : ¬ p <+: dst.dropLast :=
            fun hh => hnp (hh.trans (List.dropLast_prefix dst))
          have hfs1p : fs1.lookup p = some sn := by
            rw [mie_frame hm hq_ddl]; exact hp
          rw [hfs1p] at hsrc'
          cases hsrc'
          have hwf1 : fs1.wf = true := mie_wf hm hwf
          have hdst2 : fs2.lookup dst = some sn := by
            have h5 := rename_ok_lookup_dst hr hne hfs1p []
            rw [List.append_nil] at h5
            rw [h5]
            simp
          refine ⟨hdst2, rename_ok_lookup_src hr hne hwf1, ?_⟩
          intro q s hqs hs
          cases s with
          | nil => exact absurd rfl hs
          | cons y s' =>
              rw [← hqs] at hdst2
              obtain ⟨es, hes, -⟩ := lookup_pfx_dir hdst2
              exact ⟨es, hes⟩

/-- Witness for C2 at a concrete input: file `src` moved to the missing
path `d/e/f`; the parents `d` and `d/e` are created. -/
theorem c2_move_to_missing_destination_witness :
    (Node.dir [("d", Node.dir [("e", Node.dir [("f", Node.file "X")])])]).lookup
      ["d", "e", "f"] = some (Node.file "X") ∧
    (Node.dir [("d", Node.dir [("e", Node.dir [("f", Node.file "X")])])]).lookup
      ["src"] = none ∧
    (∃ es, (Node.dir [("d", Node.dir [("e", Node.dir [("f", Node.file "X")])])]).lookup
      ["d", "e"] = some (Node.dir es)) := by
  have h := (c2_move_to_missing_destination 0 (Node.dir [("src", Node.file "X")])
    ["src"] ["d", "e", "f"] (Node.file "X") rfl rfl rfl).2
    (Node.dir [("d", Node.dir [("e", Node.dir [("f", Node.file "X")])])]) rfl
  exact ⟨h.1, h.2.1, h.2.2 ["d", "e"] ["f"] rfl (by simp)⟩

/-- C4 counterexample: with source and destination the same existing
regular file — an instance of "every source that is a regular file and
every destination that is an existing regular file" — the call first
deletes the destination, which destroys the source too, and the
subsequent rename fails; afterwards the file is gone entirely, so the
destination does not hold the source's original content and the call
did not succeed, contradicting the claim as universally stated. -/
theorem c4_counterexample :
    (Node.dir [("a", Node.file "X")]).lookup ["a"] = some (Node.file "X") ∧
    mergeMove 1 (Node.dir [("a", Node.file "X")]) ["a"] ["a"] =
      (Node.dir [],
        some (.wrap "rename file" (.prim "rename: no such file or directory"))) :=
  ⟨rfl, rfl⟩

/-- C4 (amended: source and destination are distinct paths): for every
source that is a regular file and every existing destination that is a
distinct regular file, `MergeMove` first deletes the destination and
then renames the source onto the destination's path (first conjunct:
the call is exactly one `os.RemoveAll` of the destination followed by
one `os.Rename`), the call succeeds (second conjunct), and afterwards
the destination holds the source's original content and the source no
longer exists (third conjunct). -/
theorem c4_file_over_file_destructive (fuel : Nat) (fs : Node) (p dst : FPath)
    (c c' : String) (hwf : fs.wf = true)
    (hp : fs.lookup p = some (.file c)) (hd : fs.lookup dst = some (.file c'))
    (hne : p ≠ dst) :
    mergeMove (fuel + 1) fs p dst =
      (match rename (fs.removeAt dst) p dst with
       | (fs2, some e) => (fs2, some (.wrap "rename file" e))
       | (fs2, none) => (fs2, none)) ∧
    (mergeMove (fuel + 1) fs p dst).2 = none ∧
    (∀ fs', mergeMove (fuel + 1) fs p dst = (fs', none) →
      fs'.lookup dst = some (.file c) ∧ fs'.lookup p = none) := by
  have hnp : ¬ p <+: dst := by
    intro hh
    obtain ⟨s, rfl⟩ := hh
    cases s with
    | nil => exact hne (by simp)
    | cons y s' =>
        rw [lookup_nonDir_ext hp (fun es h => Node.noConfusion h) (by simp)] at hd
        cases hd
  have hnd : ¬ dst <+: p := by
    intro hh
    obtain ⟨s, rfl⟩ := hh
    cases s with
    | nil => exact hne (by simp)
    | cons y s' =>
        rw [lookup_nonDir_ext hd (fun es h => Node.noConfusion h) (by simp)] at hp
        cases hp
  have hdne : dst ≠ [] := by
    intro h0
    subst h0
    simp only [lookup_nil, Option.some_inj] at hd
    subst hd
    cases p with
    | nil => exact hne rfl
    | cons y p' => simp [Node.lookup] at hp
  obtain ⟨es0, hpar⟩ := lookup_parent_dir hd hdne
  have hsrc1 : (fs.removeAt dst).lookup p = some (.file c) := by
    rw [lookup_removeAt_indep hnd hnp]; exact hp
  have hdst1 : (fs.removeAt dst).lookup dst = none := lookup_removeAt_self hwf hdne
  obtain ⟨es1, hpar1⟩ := lookup_removeAt_dir (not_prefix_dropLast hdne) hpar
  have hrok : rename (fs.removeAt dst) p dst =
      (((fs.removeAt dst).removeAt p).setAt dst (.file c), none) :=
    rename_missing_ok hsrc1 hdst1 hne hnp hdne hpar1
  have heq := mergeMove_file_file fuel hp hd
  refine ⟨heq, ?_, ?_⟩
  · rw [heq, hrok]
  · intro fs' hrun
    rw [heq, hrok] at hrun
    obtain ⟨rfl, -⟩ := Prod.mk.injEq .. ▸ hrun
    constructor
    · have h5 := rename_ok_lookup_dst hrok hne hsrc1 []
      rw [List.append_nil] at h5
      rw [h5]
      simp
    · exact rename_ok_lookup_src hrok hne (removeAt_wf hwf)

/-- Witness for C4 at a concrete input: file `a` over distinct file
`b`. -/
theorem c4_file_over_file_destructive_witness :
    (Node.dir [("a", Node.file "X"), ("b", Node.file "Y")]).wf = true ∧
    (mergeMove 1 (Node.dir [("a", Node.file "X"), ("b", Node.file "Y")])
      ["a"] ["b"]).2 = none :=
  ⟨rfl, (c4_file_over_file_destructive 0
    (Node.dir [("a", Node.file "X"), ("b", Node.file "Y")]) ["a"] ["b"] "X" "Y"
    rfl rfl rfl (by simp)).2.1⟩

theorem file_src_not_prefix_tgt {fs : Node} {p dst : FPath} {c : String}
    {ds : List (String × Node)}
    (hp : fs.lookup p = some (.file c)) (hd : fs.lookup dst = some (.dir ds))
    (hne : p ≠ dst ++ [baseName p]) : ¬ p <+: dst ++ [baseName p] := by
  intro hh
  rcases prefix_snoc_cases hh with h1 | h1
  · obtain ⟨s, rfl⟩ := h1
    cases s with
    | nil =>
        rw [List.append_nil] at hd
        rw [hp] at hd
        cases hd
    | cons y s' =>
        rw [lookup_nonDir_ext hp (fun es h => Node.noConfusion h) (by simp)] at hd
        cases hd
  · exact hne h1

/-- C6 counterexample: with the source a regular file lying directly
inside the destination directory — an instance of "every source that is
a regular file and every destination that is an existing directory" —
the rename target `destination/basename(source)` equals the source
itself, the underlying `os.Rename` is a successful no-op (POSIX), and
the source still exists after the successful call, contradicting "the
source no longer exists". -/
theorem c6_counterexample :
    (Node.dir [("d", Node.dir [("x", Node.file "X")])]).lookup ["d", "x"]
      = some (Node.file "X") ∧
    (Node.dir [("d", Node.dir [("x", Node.file "X")])]).lookup ["d"]
      = some (Node.dir [("x", Node.file "X")]) ∧
    mergeMove 1 (Node.dir [("d", Node.dir [("x", Node.file "X")])]) ["d", "x"] ["d"] =
      (Node.dir [("d", Node.dir [("x", Node.file "X")])], none) :=
  ⟨rfl, rfl, rfl⟩

/-- C6 (amended: `destination/basename(source)` is distinct from the
source and is not an existing directory): for every source that is a
regular file and every destination that is an existing directory,
`MergeMove` renames the source to `destination/basename(source)` (first
conjunct: the call is exactly one `os.Rename` to that path); when that
path is distinct from the source and is not an existing directory —
missing, an existing regular file, or an existing special file — the
call succeeds (second conjunct), and afterwards
`destination/basename(source)` holds the source's original content and
the source no longer exists (third conjunct).  In the excluded cases
the underlying rename fails (existing directory) or is a no-op keeping
the source in place (path equal to source, see the counterexample). -/
theorem c6_file_into_dir (fuel : Nat) (fs : Node) (p dst : FPath) (c : String)
    (ds : List (String × Node)) (hwf : fs.wf = true)
    (hp : fs.lookup p = some (.file c)) (hd : fs.lookup dst = some (.dir ds))
    (hne : p ≠ dst ++ [baseName p])
    (htgt : ∀ es2, fs.lookup (dst ++ [baseName p]) ≠ some (.dir es2)) :
    mergeMove (fuel + 1) fs p dst =
      (match rename fs p (dst ++ [baseName p]) with
       | (fs1, some e) => (fs1, some (.wrap "rename file" e))
       | (fs1, none) => (fs1, none)) ∧
    (mergeMove (fuel + 1) fs p dst).2 = none ∧
    (∀ fs', mergeMove (fuel + 1) fs p dst = (fs', none) →
      fs'.lookup (dst ++ [baseName p]) = some (.file c) ∧ fs'.lookup p = none) := by
  have hnp : ¬ p <+: dst ++ [baseName p] := file_src_not_prefix_tgt hp hd hne
  have htne : dst ++ [baseName p] ≠ [] := by simp
  have hdrop : (dst ++ [baseName p]).dropLast = dst := by simp
  have hpar : fs.lookup (dst ++ [baseName p]).dropLast = some (.dir ds) := by
    rw [hdrop]; exact hd
  have hrok : rename fs p (dst ++ [baseName p]) =
      ((fs.removeAt p).setAt (dst ++ [baseName p]) (.file c), none) := by
    cases h0 : fs.lookup (dst ++ [baseName p]) with
    | none => exact rename_missing_ok hp h0 hne hnp htne hpar
    | some tn =>
        cases tn with
        | file cc => exact rename_file_over_file_ok hp h0 hne hnp htne hpar
        | special => exact rename_file_over_special_ok hp h0 hne hnp htne hpar
        | dir es2 => exact absurd h0 (htgt es2)
  have heq := mergeMove_file_dir fuel hp hd
  refine ⟨heq, ?_, ?_⟩
  · rw [heq, hrok]
  · intro fs' hrun
    rw [heq, hrok] at hrun
    obtain ⟨rfl, -⟩ := Prod.mk.injEq .. ▸ hrun
    constructor
    · have h5 := rename_ok_lookup_dst hrok hne hp []
      rw [List.append_nil] at h5
      rw [h5]
      simp
    · exact rename_ok_lookup_src hrok hne hwf

/-- Witness for the amended C6 at a concrete input: file `x` into
directory `t` not containing an `x`. -/
theorem c6_file_into_dir_witness :
    (Node.dir [("x", Node.file "X"), ("t", Node.dir [])]).wf = true ∧
    (mergeMove 1 (Node.dir [("x", Node.file "X"), ("t", Node.dir [])])
      ["x"] ["t"]).2 = none :=
  ⟨rfl, (c6_file_into_dir 0 (Node.dir [("x", Node.file "X"), ("t", Node.dir [])])
    ["x"] ["t"] "X" [] rfl rfl rfl (by simp) (fun es2 h => by cases h)).2.1⟩

/-- C10: for every source that is a regular file and every destination
that is an existing directory already containing a regular file named
`basename(source)`, `MergeMove` does not check for or delete that
existing file: the call is exactly one `os.Rename` of the source onto
`destination/basename(source)` (first conjunct), it succeeds (second
conjunct), and afterwards that path holds the source's content,
silently replacing the previous file content (third conjunct). -/
theorem c10_silent_replace (fuel : Nat) (fs : Node) (p dst : FPath) (c cc : String)
    (ds : List (String × Node)) (hwf : fs.wf = true)
    (hp : fs.lookup p = some (.file c)) (hd : fs.lookup dst = some (.dir ds))
    (hold : fs.lookup (dst ++ [baseName p]) = some (.file cc)) :
    mergeMove (fuel + 1) fs p dst =
      (match rename fs p (dst ++ [baseName p]) with
       | (fs1, some e) => (fs1, some (.wrap "rename file" e))
       | (fs1, none) => (fs1, none)) ∧
    (mergeMove (fuel + 1) fs p dst).2 = none ∧
    (∀ fs', mergeMove (fuel + 1) fs p dst = (fs', none) →
      fs'.lookup (dst ++ [baseName p]) = some (.file c)) := by
  have heq := mergeMove_file_dir fuel hp hd
  by_cases hne : p = dst ++ [baseName p]
  · have hrok : rename fs p (dst ++ [baseName p]) = (fs, none) := by
      rw [← hne]
      exact rename_self hp
    refine ⟨heq, by rw [heq, hrok], ?_⟩
    intro fs' hrun
    rw [heq, hrok] at hrun
    obtain ⟨rfl, -⟩ := Prod.mk.injEq .. ▸ hrun
    rw [← hne]
    exact hp
  · have hnp : ¬ p <+: dst ++ [baseName p] := file_src_not_prefix_tgt hp hd hne
    have htne : dst ++ [baseName p] ≠ [] := by simp
    have hpar : fs.lookup (dst ++ [baseName p]).dropLast = some (.dir ds) := by
      rw [show (dst ++ [baseName p]).dropLast = dst by simp]
      exact hd
    have hrok : rename fs p (dst ++ [baseName p]) =
        ((fs.removeAt p).setAt (dst ++ [baseName p]) (.file c), none) :=
      rename_file_over_file_ok hp hold hne hnp htne hpar
    refine ⟨heq, by rw [heq, hrok], ?_⟩
    intro fs' hrun
    rw [heq, hrok] at hrun
    obtain ⟨rfl, -⟩ := Prod.mk.injEq .. ▸ hrun
    have h5 := rename_ok_lookup_dst hrok hne hp []
    rw [List.append_nil] at h5
    rw [h5]
    simp

/-- Witness for C10 at a concrete input: file `x` (content `X`) into
directory `t` already containing a file `x` (content `OLD`). -/
theorem c10_silent_replace_witness :
    (Node.dir [("x", Node.file "X"), ("t", Node.dir [("x", Node.file "OLD")])]).lookup
      (["t"] ++ [baseName ["x"]]) = some (Node.file "OLD") ∧
    (mergeMove 1 (Node.dir [("x", Node.file "X"),
      ("t", Node.dir [("x", Node.file "OLD")])]) ["x"] ["t"]).2 = none :=
  ⟨rfl, (c10_silent_replace 0
    (Node.dir [("x", Node.file "X"), ("t", Node.dir [("x", Node.file "OLD")])])
    ["x"] ["t"] "X" "OLD" [("x", Node.file "OLD")] rfl rfl rfl rfl).2.1⟩

/-- C1 counterexample: with the destination an ancestor of the source —
an instance of "every source that is a directory and every destination
that is an existing directory" — the merge of `d/s` into `d` runs to
full success, yet the final filesystem is empty below `d`: the file `X`
that was under the source (at relative path `s/a`) appears nowhere
under the destination, because the final `Delete` of the source
directory removes content that the recursion had just moved inside it.
This contradicts the claim's postcondition as universally stated. -/
theorem c1_counterexample :
    (Node.dir [("d", Node.dir [("s", Node.dir [("s",
        Node.dir [("a", Node.file "X")])])])]).lookup ["d", "s"]
      = some (Node.dir [("s", Node.dir [("a", Node.file "X")])]) ∧
    (Node.dir [("d", Node.dir [("s", Node.dir [("s",
        Node.dir [("a", Node.file "X")])])])]).lookup ["d"]
      = some (Node.dir [("s", Node.dir [("s", Node.dir [("a", Node.file "X")])])]) ∧
    (Node.dir [("d", Node.dir [("s", Node.dir [("s",
        Node.dir [("a", Node.file "X")])])])]).lookup ["d", "s", "s", "a"]
      = some (Node.file "X") ∧
    mergeMove 3 (Node.dir [("d", Node.dir [("s", Node.dir [("s",
        Node.dir [("a", Node.file "X")])])])]) ["d", "s"] ["d"]
      = (Node.dir [("d", Node.dir [])], none) :=
  ⟨rfl, rfl, rfl, rfl⟩

/-- C1 (amended: source and destination are disjoint, neither being a
prefix of the other): for every source directory and every existing
destination directory, `MergeMove` lists the immediate entries of the
source and processes them in listing order (first conjunct: the call is
exactly the entry loop followed, on success, by deleting the source);
it aborts on the first failing entry, wrapping the error with the step
description `"move file"` and that entry's name, without deleting the
source (second conjunct); only after every entry succeeds is the source
directory deleted (third conjunct); and after a fully successful merge
the source directory no longer exists and every regular file that was
under the source appears under the destination with identical content —
at its own relative path, or one level deeper under its own name when a
source file met an existing destination directory (fourth conjunct). -/
theorem c1_dir_merge (fuel : Nat) (fs : Node) (p dst : FPath)
    (es ds : List (String × Node)) (hwf : fs.wf = true)
    (hdisj : indep p dst = true)
    (hp : fs.lookup p = some (.dir es)) (hd : fs.lookup dst = some (.dir ds)) :
    mergeMove (fuel + 1) fs p dst =
      (match runEntries (fun s a b => mergeMove fuel s a b) fs
          (es.map Prod.fst) p dst with
       | (fs1, some e) => (fs1, some e)
       | (fs1, none) => (fs1.removeAt p, none)) ∧
    (∀ pre name post fs1 fs2 err, es.map Prod.fst = pre ++ name :: post →
      runEntries (fun s a b => mergeMove fuel s a b) fs pre p dst = (fs1, none) →
      mergeMove fuel fs1 (p ++ [name]) (dst ++ [name]) = (fs2, some err) →
      mergeMove (fuel + 1) fs p dst = (fs2, some (.wrapName "move file" name err))) ∧
    (∀ fs1, runEntries (fun s a b => mergeMove fuel s a b) fs
        (es.map Prod.fst) p dst = (fs1, none) →
      mergeMove (fuel + 1) fs p dst = (fs1.removeAt p, none)) ∧
    (∀ fs', mergeMove (fuel + 1) fs p dst = (fs', none) →
      fs'.lookup p = none ∧
      ∀ q c, (Node.dir es).lookup q = some (.file c) →
        fs'.lookup (dst ++ q) = some (.file c) ∨
        ∃ n, (p ++ q).getLast? = some n ∧
          fs'.lookup ((dst ++ q) ++ [n]) = some (.file c)) := by
  have heq := mergeMove_dir_dir fuel hp hd
  refine ⟨heq, ?_, ?_, ?_⟩
  · intro pre name post fs1 fs2 err hsplit hpre hchild
    rw [heq, hsplit, runEntries_append]
    simp only [hpre, runEntries_cons]
    simp only [hchild]
  · intro fs1 hloop
    rw [heq]
    simp only [hloop]
  · intro fs' hrun
    obtain ⟨R1, -, -, -, R5⟩ :=
      mergeMove_sound (fuel + 1) fs p dst (.dir es) fs' hwf hdisj hp hrun
    exact ⟨R1, R5⟩

/-- Witness for the amended C1 at a concrete input: directory `s`
(containing file `a`) merged into existing directory `t`; afterwards
`s` is gone and `t/a` holds the content `A`. -/
theorem c1_dir_merge_witness :
    (Node.dir [("t", Node.dir [("a", Node.file "A")])]).lookup ["s"] = none ∧
    ((Node.dir [("t", Node.dir [("a", Node.file "A")])]).lookup (["t"] ++ ["a"])
        = some (Node.file "A") ∨
      ∃ n, (["s"] ++ ["a"]).getLast? = some n ∧
        (Node.dir [("t", Node.dir [("a", Node.file "A")])]).lookup
          ((["t"] ++ ["a"]) ++ [n]) = some (Node.file "A")) := by
  have h := (c1_dir_merge 1
    (Node.dir [("s", Node.dir [("a", Node.file "A")]), ("t", Node.dir [])])
    ["s"] ["t"] [("a", Node.file "A")] [] rfl rfl rfl rfl).2.2.2
    (Node.dir [("t", Node.dir [("a", Node.file "A")])]) rfl
  exact ⟨h.1, h.2 ["a"] "A" rfl⟩

/-- C8: under the precondition that source and destination are disjoint
(in particular the destination is not a descendant of the source),
`MergeMove` terminates on every finite source tree: with fuel at least
the height of the source subtree, the embedding never reports fuel
exhaustion — each recursive call operates on a strictly smaller subtree
(first conjunct).  No descendant-of-source check is performed on the
destination before recursing: with the destination a strict descendant
of the source, the call still lists the entries and recurses, failing
only inside the recursion at the underlying rename (`EINVAL`), wrapped
as a per-entry `"move file"` error (second conjunct, a concrete run). -/
theorem c8_terminates_on_disjoint_trees (fuel : Nat) (fs : Node) (p dst : FPath)
    (sn : Node) (hwf : fs.wf = true) (hdisj : indep p dst = true)
    (hp : fs.lookup p = some sn) (hfuel : sn.depth ≤ fuel) :
    (∀ e, (mergeMove fuel fs p dst).2 = some e → Err.hasFuelErr e = false) ∧
    mergeMove 3 (Node.dir [("d", Node.dir [("sub", Node.dir [])])]) ["d"] ["d", "sub"]
      = (Node.dir [("d", Node.dir [("sub", Node.dir [])])],
          some (.wrapName "move file" "sub"
            (.wrap "rename file" (.prim "rename: invalid argument")))) :=
  ⟨fun e he => mergeMove_no_fuel_err fuel fs p dst sn e hwf hdisj hp hfuel he, rfl⟩

/-- Witness for C8 at a concrete input: source `s` of height 2 with
fuel 2. -/
theorem c8_terminates_on_disjoint_trees_witness :
    mergeMove 3 (Node.dir [("d", Node.dir [("sub", Node.dir [])])]) ["d"] ["d", "sub"]
      = (Node.dir [("d", Node.dir [("sub", Node.dir [])])],
          some (.wrapName "move file" "sub"
            (.wrap "rename file" (.prim "rename: invalid argument")))) :=
  (c8_terminates_on_disjoint_trees 2
    (Node.dir [("s", Node.dir [("a", Node.file "A")]), ("t", Node.dir [])])
    ["s"] ["t"] (Node.dir [("a", Node.file "A")]) rfl rfl rfl (by decide)).2
